import Mathlib

/-!
Verification development for the knowledge-graph pipeline
(gaussian-splatting-knowledge-graph).

Shallow embedding of the pipeline's core functions:

* `Helpers` — `normalizeEntityName`, `calculateSimilarity`,
  `areSimilarEntities` from `src/utils/helpers.ts`.
* `Extractor` — the three extraction passes and `storeEntities` from
  `src/agents/EntityExtractorAgent.ts`, over an abstract store interface
  mirroring `src/database/queries.ts`.
* `Queries` — a concrete sequential store instance implementing the
  uniqueness constraints of `src/database/schema.sql`.
* `Mapper` — `mapImprovements` from `src/agents/RelationshipMapperAgent.ts`
  and the reachable-state relation of the pipeline.
* `Validator` — `checkCircularImprovements` (DFS cycle detection) from
  `src/agents/ValidatorAgent.ts`.
* `Reader` — `fetchRelatedPapers` (BFS citation traversal) from
  `src/agents/PaperReaderAgent.ts`.
* `Coordinator` — `processPapersBatch` from `src/agents/base/Coordinator.ts`.

JavaScript numbers are modelled as exact rationals except where the NaN /
Infinity special values are observable, where the inductive `JsNum` is used.
Strings are Lean `String`s (lists of characters); fallible calls return
`Except`/`Option`.
-/

namespace KG

/-! ### Helpers (`src/utils/helpers.ts`) -/

/-- ASCII code point of a character (JS `charCodeAt` for the ASCII range). -/
def charCode (c : Char) : Nat := c.toNat

/-- Model of JS `String.prototype.toLowerCase` on one character: ASCII
uppercase letters are shifted to lowercase, everything else is unchanged. -/
def jsToLowerChar (c : Char) : Char :=
  if 65 ≤ charCode c ∧ charCode c ≤ 90 then Char.ofNat (charCode c + 32) else c

/-- Whitespace characters removed by JS `String.prototype.trim`
(the ASCII ones plus NBSP, which is what occurs in practice). -/
def isJsSpace (c : Char) : Bool :=
  decide (charCode c = 9 ∨ charCode c = 10 ∨ charCode c = 11 ∨ charCode c = 12 ∨
    charCode c = 13 ∨ charCode c = 32 ∨ charCode c = 160)

/-- Characters matched by `[a-z0-9]` in `normalizeEntityName`'s regexes. -/
def isLowerAlnum (c : Char) : Bool :=
  decide ((97 ≤ charCode c ∧ charCode c ≤ 122) ∨ (48 ≤ charCode c ∧ charCode c ≤ 57))

/-- JS `trim`: drop whitespace from both ends. -/
def jsTrim (l : List Char) : List Char :=
  ((l.dropWhile isJsSpace).reverse.dropWhile isJsSpace).reverse

/-- `replace(/[^a-z0-9]+/g, '-')`: every maximal run of characters outside
`[a-z0-9]` is replaced by a single `'-'`.  The boolean argument records
whether we are inside such a run (so that only its first character emits
the hyphen). -/
def collapseGo : Bool → List Char → List Char
  | _, [] => []
  | inRun, c :: rest =>
    if isLowerAlnum c then c :: collapseGo false rest
    else if inRun then collapseGo true rest
    else '-' :: collapseGo true rest

/-- `replace(/^-+|-+$/g, '')`: strip leading and trailing hyphen runs. -/
def dropEdgeHyphens (l : List Char) : List Char :=
  (((l.dropWhile (fun c => c = '-')).reverse).dropWhile (fun c => c = '-')).reverse

/-- `normalizeEntityName` from `src/utils/helpers.ts`:
`name.toLowerCase().trim().replace(/[^a-z0-9]+/g, '-').replace(/^-+|-+$/g, '')`. -/
def normalizeEntityName (s : String) : String :=
  ⟨dropEdgeHyphens (collapseGo false (jsTrim (s.data.map jsToLowerChar)))⟩

/-- JS number with its observable special values; finite values are modelled
as exact rationals. -/
inductive JsNum where
  | nan : JsNum
  | posInf : JsNum
  | negInf : JsNum
  | num : ℚ → JsNum
deriving DecidableEq

/-- JS division of two nonnegative integers (`distance / maxLength`):
`0/0` is `NaN`, `d/0` with `d > 0` is `Infinity`. -/
def jsDivNat (a b : Nat) : JsNum :=
  if b = 0 then (if a = 0 then JsNum.nan else JsNum.posInf)
  else JsNum.num ((a : ℚ) / (b : ℚ))

/-- JS subtraction `x - y` restricted to the shapes reachable from
`1 - distance/maxLength`. -/
def jsSub : JsNum → JsNum → JsNum
  | JsNum.nan, _ => JsNum.nan
  | _, JsNum.nan => JsNum.nan
  | JsNum.num a, JsNum.num b => JsNum.num (a - b)
  | JsNum.num _, JsNum.posInf => JsNum.negInf
  | JsNum.num _, JsNum.negInf => JsNum.posInf
  | JsNum.posInf, JsNum.num _ => JsNum.posInf
  | JsNum.posInf, JsNum.negInf => JsNum.posInf
  | JsNum.posInf, JsNum.posInf => JsNum.nan
  | JsNum.negInf, JsNum.num _ => JsNum.negInf
  | JsNum.negInf, JsNum.posInf => JsNum.negInf
  | JsNum.negInf, JsNum.negInf => JsNum.nan

/-- JS comparison `x >= y`; any comparison involving `NaN` is false. -/
def jsGe : JsNum → JsNum → Bool
  | JsNum.nan, _ => false
  | _, JsNum.nan => false
  | JsNum.num a, JsNum.num b => decide (b ≤ a)
  | JsNum.posInf, _ => true
  | JsNum.num _, JsNum.posInf => false
  | JsNum.num _, JsNum.negInf => true
  | JsNum.negInf, JsNum.negInf => true
  | JsNum.negInf, _ => false

/-- Entry `(i, j)` of the Levenshtein matrix built by `calculateSimilarity`:
`matrix[i][0] = i`, `matrix[0][j] = j`, and the inner-loop recurrence.  The
character comparison `s1[i-1] === s2[j-1]` is modelled on `Option` (out of
range, JS compares `undefined === undefined`, which is true). -/
def levEntry (s1 s2 : List Char) : Nat → Nat → Nat
  | i, 0 => i
  | 0, j + 1 => j + 1
  | i + 1, j + 1 =>
    if s1.get? i = s2.get? j then levEntry s1 s2 i j
    else
      min (min (levEntry s1 s2 i j + 1) (levEntry s1 s2 (i + 1) j + 1))
        (levEntry s1 s2 i (j + 1) + 1)
termination_by i j => i + j

/-- `calculateSimilarity` from `src/utils/helpers.ts`: lowercase both
strings, compute the Levenshtein distance with the dynamic-programming
matrix, and return `1 - distance / maxLength`. -/
def calculateSimilarity (str1 str2 : String) : JsNum :=
  let s1 := str1.data.map jsToLowerChar
  let s2 := str2.data.map jsToLowerChar
  let maxLen := max s1.length s2.length
  jsSub (JsNum.num 1) (jsDivNat (levEntry s1 s2 s1.length s2.length) maxLen)

/-- `areSimilarEntities` from `src/utils/helpers.ts`:
`calculateSimilarity(name1, name2) >= threshold`. -/
def areSimilarEntities (name1 name2 : String) (threshold : ℚ) : Bool :=
  jsGe (calculateSimilarity name1 name2) (JsNum.num threshold)

/-! ### Extraction data model (`src/types.ts`) -/

/-- `ExtractedConcept` (the fields read by the embedded code paths;
`type`/`context` are prompt-only and never read by the pipeline). -/
structure ExtractedConcept where
  name : String
  normalized_name : Option String := none
  description : String
  category : Option String := none
  confidence : ℚ
deriving DecidableEq

/-- `ExtractedMethod`. -/
structure ExtractedMethod where
  name : String
  normalized_name : Option String := none
  description : String
  computational_complexity : Option String := none
  confidence : ℚ
deriving DecidableEq

/-- `ExtractedDataset`. -/
structure ExtractedDataset where
  name : String
  description : String
  url : Option String := none
deriving DecidableEq

/-- `ExtractedMetric` (passed through the pipeline untouched). -/
structure ExtractedMetric where
  name : String
deriving DecidableEq

/-- `ExtractedEntities`. -/
structure ExtractedEntities where
  concepts : List ExtractedConcept
  methods : List ExtractedMethod
  datasets : List ExtractedDataset
  metrics : List ExtractedMetric
deriving DecidableEq

/-! ### Pass 3 — `validateAndScore` (`src/agents/EntityExtractorAgent.ts`) -/

/-- The concept filter of `validateAndScore`: drop a concept without a
(truthy, i.e. nonempty) name or description or with confidence below 0.5;
a surviving concept whose description is shorter than 20 characters has its
confidence multiplied by 0.8 (the JS callback mutates `c.confidence` after
the `< 0.5` test, so the test sees the unpenalized value). -/
def validConcept (c : ExtractedConcept) : Option ExtractedConcept :=
  if c.name = "" ∨ c.description = "" then none
  else if c.confidence < mkRat 1 2 then none
  else if c.description.length < 20 then
    some { c with confidence := c.confidence * mkRat 4 5 }
  else some c

/-- `validateAndScore` (pass 3): filter concepts (with the length penalty),
keep methods with a truthy name, a truthy description and description
length strictly greater than 10, and datasets with a truthy name and
description; metrics pass through. -/
def validateAndScore (e : ExtractedEntities) : ExtractedEntities where
  concepts := e.concepts.filterMap validConcept
  methods := e.methods.filter fun m =>
    decide (m.name ≠ "" ∧ m.description ≠ "" ∧ 10 < m.description.length)
  datasets := e.datasets.filter fun d => decide (d.name ≠ "" ∧ d.description ≠ "")
  metrics := e.metrics

/-! ### Canonical-store rows and the abstract store interface
(`src/database/queries.ts`).  Every operation takes the store state and
returns its result together with the next state; a Supabase call can hit a
store modified by a concurrent worker between two calls, which this
state-threading makes expressible. `Except.error` models a rejected
insert (e.g. a unique-constraint violation), which `queries.ts` re-throws
(`if (error) throw error`). -/

/-- A row of the `concepts` table. -/
structure ConceptRow where
  id : String
  name : String
  normalized_name : String
  description : String
  category : Option String
  first_introduced_by : String
  confidence : ℚ
deriving DecidableEq

/-- A row of the `methods` table. -/
structure MethodRow where
  id : String
  name : String
  normalized_name : String
  description : String
  computational_complexity : Option String
  introduced_in : String
deriving DecidableEq

/-- A row of the `datasets` table. -/
structure DatasetRow where
  id : String
  name : String
  description : String
  url : Option String
  introduced_in : String
deriving DecidableEq

/-- The column values passed to `insertConcept` by `storeEntities`
(the database generates the id). -/
structure ConceptInsert where
  name : String
  normalized_name : String
  description : String
  category : Option String
  first_introduced_by : String
  confidence : ℚ
deriving DecidableEq

/-- The column values passed to `insertMethod`. -/
structure MethodInsert where
  name : String
  normalized_name : String
  description : String
  computational_complexity : Option String
  introduced_in : String
deriving DecidableEq

/-- The column values passed to `insertDataset`. -/
structure DatasetInsert where
  name : String
  description : String
  url : Option String
  introduced_in : String
deriving DecidableEq

/-- The store operations used by `storeEntities` / `disambiguateEntities`
(`getConceptByName`, `insertConcept`, `linkPaperToConcept`, … from
`src/database/queries.ts`), abstracted over the store state `S`. -/
structure StoreOps (S : Type) where
  getConceptByName : S → String → Option ConceptRow × S
  insertConcept : S → ConceptInsert → Except Unit ConceptRow × S
  linkPaperToConcept : S → String → String → ℚ → Except Unit Unit × S
  getMethodByName : S → String → Option MethodRow × S
  insertMethod : S → MethodInsert → Except Unit MethodRow × S
  linkPaperToMethod : S → String → String → Except Unit Unit × S
  getDatasetByName : S → String → Option DatasetRow × S
  insertDataset : S → DatasetInsert → Except Unit DatasetRow × S
  linkPaperToDataset : S → String → String → Except Unit Unit × S

/-! ### Pass 2 — `disambiguateEntities` -/

/-- Disambiguate one concept: look up its normalized key; on a hit, rebind
name and key to the canonical row; on a miss, keep the raw name with the
computed key. -/
def disambiguateConcept {S : Type} (ops : StoreOps S) (c : ExtractedConcept)
    (s : S) : ExtractedConcept × S :=
  let normalized := normalizeEntityName c.name
  match ops.getConceptByName s normalized with
  | (some existing, s') =>
    ({ c with name := existing.name, normalized_name := some existing.normalized_name }, s')
  | (none, s') => ({ c with normalized_name := some normalized }, s')

/-- Disambiguate one method. -/
def disambiguateMethod {S : Type} (ops : StoreOps S) (m : ExtractedMethod)
    (s : S) : ExtractedMethod × S :=
  let normalized := normalizeEntityName m.name
  match ops.getMethodByName s normalized with
  | (some existing, s') =>
    ({ m with name := existing.name, normalized_name := some existing.normalized_name }, s')
  | (none, s') => ({ m with normalized_name := some normalized }, s')

/-- Disambiguate one dataset (datasets are matched on exact display name). -/
def disambiguateDataset {S : Type} (ops : StoreOps S) (d : ExtractedDataset)
    (s : S) : ExtractedDataset × S :=
  match ops.getDatasetByName s d.name with
  | (some existing, s') => ({ d with name := existing.name }, s')
  | (none, s') => (d, s')

/-- Fold a per-item disambiguation over a list, threading the store state. -/
def disambiguateList {S α : Type} (step : α → S → α × S) :
    List α → S → List α × S
  | [], s => ([], s)
  | a :: rest, s =>
    let r := step a s
    let rr := disambiguateList step rest r.2
    (r.1 :: rr.1, rr.2)

/-- `disambiguateEntities` (pass 2): pure store lookups, no writes. -/
def disambiguateEntities {S : Type} (ops : StoreOps S) (e : ExtractedEntities)
    (s : S) : ExtractedEntities × S :=
  let r1 := disambiguateList (disambiguateConcept ops) e.concepts s
  let r2 := disambiguateList (disambiguateMethod ops) e.methods r1.2
  let r3 := disambiguateList (disambiguateDataset ops) e.datasets r2.2
  ({ concepts := r1.1, methods := r2.1, datasets := r3.1, metrics := e.metrics }, r3.2)

/-! ### Persistence — `storeEntities` -/

/-- Persist one concept (`storeEntities`'s concept loop body, including its
per-item `try/catch`): look up the normalized key; on a hit reuse the
existing row's id, otherwise insert a new row; then link the paper to the
concept.  Any error (rejected insert, rejected link) is caught and logged,
leaving the state as it was at the failed call. -/
def storeOneConcept {S : Type} (ops : StoreOps S) (paperId : String)
    (c : ExtractedConcept) (s : S) : S :=
  let key := c.normalized_name.getD (normalizeEntityName c.name)
  let gc := ops.getConceptByName s key
  match gc.1 with
  | some existing => (ops.linkPaperToConcept gc.2 paperId existing.id c.confidence).2
  | none =>
    let ins := ops.insertConcept gc.2
      ⟨c.name, key, c.description, c.category, paperId, c.confidence⟩
    match ins.1 with
    | Except.error _ => ins.2
    | Except.ok inserted => (ops.linkPaperToConcept ins.2 paperId inserted.id c.confidence).2

/-- Persist one method (same shape as `storeOneConcept`). -/
def storeOneMethod {S : Type} (ops : StoreOps S) (paperId : String)
    (m : ExtractedMethod) (s : S) : S :=
  let key := m.normalized_name.getD (normalizeEntityName m.name)
  let gm := ops.getMethodByName s key
  match gm.1 with
  | some existing => (ops.linkPaperToMethod gm.2 paperId existing.id).2
  | none =>
    let ins := ops.insertMethod gm.2
      ⟨m.name, key, m.description, m.computational_complexity, paperId⟩
    match ins.1 with
    | Except.error _ => ins.2
    | Except.ok inserted => (ops.linkPaperToMethod ins.2 paperId inserted.id).2

/-- Persist one dataset (datasets are keyed by display name). -/
def storeOneDataset {S : Type} (ops : StoreOps S) (paperId : String)
    (d : ExtractedDataset) (s : S) : S :=
  let gd := ops.getDatasetByName s d.name
  match gd.1 with
  | some existing => (ops.linkPaperToDataset gd.2 paperId existing.id).2
  | none =>
    let ins := ops.insertDataset gd.2 ⟨d.name, d.description, d.url, paperId⟩
    match ins.1 with
    | Except.error _ => ins.2
    | Except.ok inserted => (ops.linkPaperToDataset ins.2 paperId inserted.id).2

/-- `storeEntities`: persist concepts, then methods, then datasets;
each item is attempted independently and item-level failures are collected
(logged), never raised. -/
def storeEntities {S : Type} (ops : StoreOps S) (paperId : String)
    (e : ExtractedEntities) (s : S) : S :=
  let s1 := e.concepts.foldl (fun st c => storeOneConcept ops paperId c st) s
  let s2 := e.methods.foldl (fun st m => storeOneMethod ops paperId m st) s1
  e.datasets.foldl (fun st d => storeOneDataset ops paperId d st) s2

/-- The `extract` pipeline after pass 1 (the LLM oracle's structured output
`raw` is pass 1's result; on oracle failure pass 1 yields empty collections,
which is just a particular `raw`): disambiguate, validate, persist. -/
def extractPipeline {S : Type} (ops : StoreOps S) (paperId : String)
    (raw : ExtractedEntities) (s : S) : S :=
  let r := disambiguateEntities ops raw s
  storeEntities ops paperId (validateAndScore r.1) r.2

/-! ### Concrete sequential store (`src/database/schema.sql` +
`src/database/queries.ts`) -/

/-- A `concept_improves_concept` row: `new_concept`, `old_concept`,
`improvement_type`, `confidence` (the improvement edge). -/
structure ImprovesRow where
  new_concept : String
  old_concept : String
  improvement_type : String
  confidence : ℚ
deriving DecidableEq

/-- The canonical store: the tables touched by the embedded pipeline, plus
a counter standing in for the database's UUID generator. -/
structure DB where
  concepts : List ConceptRow
  methods : List MethodRow
  datasets : List DatasetRow
  picLinks : List (String × String × ℚ)
  pumLinks : List (String × String)
  pedLinks : List (String × String)
  improves : List ImprovesRow
  nextId : Nat
deriving DecidableEq

/-- The empty store. -/
def DB.empty : DB := ⟨[], [], [], [], [], [], [], 0⟩

/-- The store operations on `DB`, implementing the schema's uniqueness
constraints sequentially: `UNIQUE(normalized_name)` on concepts and
methods, `UNIQUE(name)` on datasets, and `UNIQUE(paper_id, concept_id)` /
`UNIQUE(paper_id, method_id)` / `UNIQUE(paper_id, dataset_id)` on the link
tables.  An insert hitting a constraint is rejected (`Except.error`),
exactly what `queries.ts` re-throws. -/
def dbOps : StoreOps DB where
  getConceptByName := fun s k => (s.concepts.find? (fun r => r.normalized_name = k), s)
  insertConcept := fun s r =>
    if s.concepts.any (fun row => row.normalized_name = r.normalized_name) then
      (Except.error (), s)
    else
      let row : ConceptRow :=
        ⟨toString s.nextId, r.name, r.normalized_name, r.description, r.category,
          r.first_introduced_by, r.confidence⟩
      (Except.ok row, { s with concepts := s.concepts ++ [row], nextId := s.nextId + 1 })
  linkPaperToConcept := fun s p cid conf =>
    if s.picLinks.any (fun l => l.1 = p ∧ l.2.1 = cid) then (Except.error (), s)
    else (Except.ok (), { s with picLinks := s.picLinks ++ [(p, cid, conf)] })
  getMethodByName := fun s k => (s.methods.find? (fun r => r.normalized_name = k), s)
  insertMethod := fun s r =>
    if s.methods.any (fun row => row.normalized_name = r.normalized_name) then
      (Except.error (), s)
    else
      let row : MethodRow :=
        ⟨toString s.nextId, r.name, r.normalized_name, r.description,
          r.computational_complexity, r.introduced_in⟩
      (Except.ok row, { s with methods := s.methods ++ [row], nextId := s.nextId + 1 })
  linkPaperToMethod := fun s p mid =>
    if s.pumLinks.any (fun l => l.1 = p ∧ l.2 = mid) then (Except.error (), s)
    else (Except.ok (), { s with pumLinks := s.pumLinks ++ [(p, mid)] })
  getDatasetByName := fun s k => (s.datasets.find? (fun r => r.name = k), s)
  insertDataset := fun s r =>
    if s.datasets.any (fun row => row.name = r.name) then (Except.error (), s)
    else
      let row : DatasetRow := ⟨toString s.nextId, r.name, r.description, r.url, r.introduced_in⟩
      (Except.ok row, { s with datasets := s.datasets ++ [row], nextId := s.nextId + 1 })
  linkPaperToDataset := fun s p did =>
    if s.pedLinks.any (fun l => l.1 = p ∧ l.2 = did) then (Except.error (), s)
    else (Except.ok (), { s with pedLinks := s.pedLinks ++ [(p, did)] })

/-! ### Relationship mapper (`src/agents/RelationshipMapperAgent.ts`) -/

/-- The structured result of the LLM relationship-classification call. -/
structure ClassifyResult where
  has_relationship : Bool
  relationship_type : String
  improvement_category : Option String
  confidence : Option ℚ
deriving DecidableEq

/-- `createConceptImprovement` (`src/database/queries.ts`): insert a
`concept_improves_concept` row, rejected when the `(new, old)` pair already
exists (`UNIQUE(new_concept, old_concept)`). -/
def createConceptImprovement (s : DB) (newId oldId : String)
    (improvementType : String) (confidence : ℚ) : Except Unit Unit × DB :=
  if s.improves.any (fun r => r.new_concept = newId ∧ r.old_concept = oldId) then
    (Except.error (), s)
  else (Except.ok (), { s with improves := s.improves ++ [⟨newId, oldId, improvementType, confidence⟩] })

/-- The body of `mapImprovements`'s inner candidate loop: classify the
directed pair (new = this paper's concept, old = candidate) with the LLM
(`none` models a failed call, caught and skipped); persist only
`improves_on` results via `createConceptImprovement`, whose rejection is
also caught and skipped. -/
def mapOneCandidate (classify : ConceptRow → ConceptRow → Option ClassifyResult)
    (concept oldConcept : ConceptRow) (s : DB) : DB :=
  match classify concept oldConcept with
  | none => s
  | some res =>
    if res.has_relationship ∧ res.relationship_type = "improves_on" then
      (createConceptImprovement s concept.id oldConcept.id
        (res.improvement_category.getD "quality") (res.confidence.getD (mkRat 7 10))).2
    else s

/-- The body of `mapImprovements`'s outer loop for one concept of the
paper: fetch up to 10 *other* concepts (`.neq('id', concept.id).limit(10)`)
and run the candidate loop over each. -/
def mapOneConcept (classify : ConceptRow → ConceptRow → Option ClassifyResult)
    (concept : ConceptRow) (s : DB) : DB :=
  let relatedConcepts := (s.concepts.filter (fun r => r.id ≠ concept.id)).take 10
  relatedConcepts.foldl (fun st oldC => mapOneCandidate classify concept oldC st) s

/-- `getConceptsByPaper`: the concept rows joined through
`paper_introduces_concept` for this paper. -/
def getConceptsByPaper (s : DB) (paperId : String) : List ConceptRow :=
  (s.picLinks.filter (fun l => l.1 = paperId)).filterMap
    (fun l => s.concepts.find? (fun r => r.id = l.2.1))

/-- `mapImprovements`: for every concept this paper introduced, classify it
against a bounded candidate set of other concepts and persist the
`improves_on` results. -/
def mapImprovements (classify : ConceptRow → ConceptRow → Option ClassifyResult)
    (paperId : String) (s : DB) : DB :=
  (getConceptsByPaper s paperId).foldl
    (fun st c => mapOneConcept classify c st) s

/-- The states of the canonical store reachable from the empty store by
runs of the pipeline stages that write to it: the extraction pipeline
(with an arbitrary pass-1 oracle output) and `mapImprovements` (with an
arbitrary classification oracle).  The validator is read-only. -/
inductive ReachableDB : DB → Prop
  | empty : ReachableDB DB.empty
  | extractStep {s : DB} (paperId : String) (raw : ExtractedEntities) :
      ReachableDB s → ReachableDB (extractPipeline dbOps paperId raw s)
  | mapStep {s : DB} (classify : ConceptRow → ConceptRow → Option ClassifyResult)
      (paperId : String) :
      ReachableDB s → ReachableDB (mapImprovements classify paperId s)

/-- The directed new-to-old edge relation of the stored improvement edges. -/
def improvesEdge (s : DB) (a b : String) : Prop :=
  ∃ r ∈ s.improves, r.new_concept = a ∧ r.old_concept = b

/-! ### Graph validator — `checkCircularImprovements`
(`src/agents/ValidatorAgent.ts`).

The TS code builds a `Map` adjacency (new → old) over all
`concept_improves_concept` rows and runs a recursive DFS with a shared
`visited` set and a `recursionStack` set.  The JS sets are modelled as
lists (membership is all that is used); `hasCycle` returns, along with its
boolean, the nodes it newly added to `visited` (the caller appends them)
and the resulting recursion stack, reproducing the mutation of the shared
sets — including the fact that an early `return true` skips the
`recursionStack.delete(node)` cleanup. -/

variable {V : Type} [DecidableEq V]

/-- All endpoints of the edge list (used as the finite node universe for
the termination measure). -/
def allNodesOf (edges : List (V × V)) : List V :=
  edges.map Prod.fst ++ edges.map Prod.snd

/-- The adjacency built by `checkCircularImprovements`:
`graph.get(a)` = the old-concept endpoints of the edges whose new-concept
endpoint is `a`, in row order. -/
def adjOf (edges : List (V × V)) (a : V) : List V :=
  (edges.filter (fun e => e.1 = a)).map Prod.snd

/-- JS `Set.prototype.add` on the list model. -/
def jsAdd (x : V) (l : List V) : List V := if x ∈ l then l else x :: l

/-- JS `Set.prototype.delete` on the list model. -/
def jsDelete (x : V) (l : List V) : List V := l.erase x

/-- Termination measure: how many of the graph's nodes are not yet visited. -/
def unvisitedCount (edges : List (V × V)) (visited : List V) : Nat :=
  ((allNodesOf edges).toFinset \ visited.toFinset).card

mutual

/-- The recursive closure `hasCycle(node)`: mark the node visited, push it
on the recursion stack, scan its neighbors, and pop the stack on a
cycle-free return.  Returns (found-cycle?, nodes newly added to `visited`,
resulting recursion stack). -/
def hasCycle (edges : List (V × V)) (node : V) (visited stack : List V)
    (hmem : node ∈ allNodesOf edges) (hnv : node ∉ visited) :
    Bool × List V × List V :=
  match neighborsLoop edges (adjOf edges node)
      (by
        intro x hx
        simp only [adjOf, List.mem_map, List.mem_filter] at hx
        obtain ⟨e, ⟨he, _⟩, rfl⟩ := hx
        exact List.mem_append_right _ (List.mem_map_of_mem Prod.snd he))
      (node :: visited) (jsAdd node stack) with
  | (true, dv, s') => (true, dv ++ [node], s')
  | (false, dv, s') => (false, dv ++ [node], jsDelete node s')
termination_by (unvisitedCount edges visited, 0)
decreasing_by
  apply Prod.Lex.left
  apply Finset.card_lt_card
  rw [Finset.ssubset_iff_of_subset
    (Finset.sdiff_subset_sdiff (Finset.Subset.refl _) (by
      intro x hx
      simp only [List.toFinset_cons, Finset.mem_insert, List.mem_toFinset] at *
      exact Or.inr hx))]
  refine ⟨node, ?_, ?_⟩
  · simp only [Finset.mem_sdiff, List.mem_toFinset]
    exact ⟨hmem, hnv⟩
  · simp

/-- The `for (const neighbor of neighbors)` loop inside `hasCycle`:
an unvisited neighbor is recursed into (propagating `true` immediately);
a visited neighbor on the recursion stack is a back-edge (`return true`);
a visited neighbor off the stack is skipped. -/
def neighborsLoop (edges : List (V × V)) (l : List V)
    (hl : ∀ x ∈ l, x ∈ allNodesOf edges) (visited stack : List V) :
    Bool × List V × List V :=
  match l with
  | [] => (false, [], stack)
  | n :: rest =>
    if hn : n ∈ visited then
      if n ∈ stack then (true, [], stack)
      else
        neighborsLoop edges rest (fun x hx => hl x (List.mem_cons_of_mem n hx))
          visited stack
    else
      match hasCycle edges n visited stack (hl n (List.mem_cons_self n rest)) hn with
      | (true, dv, s') => (true, dv, s')
      | (false, dv, s') =>
        match neighborsLoop edges rest (fun x hx => hl x (List.mem_cons_of_mem n hx))
            (dv ++ visited) s' with
        | (b2, dv2, s2) => (b2, dv2 ++ dv, s2)
termination_by (unvisitedCount edges visited, l.length + 1)
decreasing_by
  · apply Prod.Lex.right
    simp only [List.length_cons]
    omega
  · apply Prod.Lex.right
    omega
  · have hsub : visited.toFinset ⊆ (dv ++ visited).toFinset := by
      intro x hx
      simp only [List.mem_toFinset] at *
      exact List.mem_append_right dv hx
    have hle : unvisitedCount edges (dv ++ visited) ≤ unvisitedCount edges visited :=
      Finset.card_le_card (Finset.sdiff_subset_sdiff (Finset.Subset.refl _) hsub)
    rcases lt_or_eq_of_le hle with h | h
    · exact Prod.Lex.left _ _ h
    · rw [unvisitedCount] at h
      rw [unvisitedCount, h]
      apply Prod.Lex.right
      simp only [List.length_cons]
      omega

end

/-- Distinct elements in first-occurrence order: the iteration order of the
JS `Map`'s keys, which are inserted in edge-row order. -/
def firstDedup : List V → List V
  | [] => []
  | x :: xs => x :: firstDedup (xs.filter (fun y => y ≠ x))
termination_by l => l.length
decreasing_by
  exact Nat.lt_succ_of_le (List.length_filter_le _ _)

/-- The outer `for (const node of graph.keys())` loop: run the DFS from
every not-yet-visited key, pushing one `circular_improvement` conflict per
root whose DFS reports a cycle; the shared `visited` and `recursionStack`
sets persist across roots.  Returns the number of conflicts pushed. -/
def rootsLoop (edges : List (V × V)) :
    (roots : List V) → (∀ x ∈ roots, x ∈ allNodesOf edges) →
    List V → List V → Nat
  | [], _, _, _ => 0
  | r :: rest, hr, visited, stack =>
    if hv : r ∈ visited then
      rootsLoop edges rest (fun x hx => hr x (List.mem_cons_of_mem r hx)) visited stack
    else
      match hasCycle edges r visited stack (hr r (List.mem_cons_self r rest)) hv with
      | (b, dv, s') =>
        (if b then 1 else 0) +
          rootsLoop edges rest (fun x hx => hr x (List.mem_cons_of_mem r hx))
            (dv ++ visited) s'

/-- `checkCircularImprovements` over an edge list (new-concept,
old-concept): the number of `circular_improvement` conflicts the validator
pushes. -/
def checkCircularImprovements (edges : List (V × V)) : Nat :=
  rootsLoop edges (firstDedup (edges.map Prod.fst))
    (by
      intro x hx
      have : ∀ l : List V, x ∈ firstDedup l → x ∈ l := by
        intro l
        induction l using firstDedup.induct with
        | case1 => simp [firstDedup]
        | case2 y ys ih =>
          intro hmem
          simp only [firstDedup, List.mem_cons] at hmem
          rcases hmem with h | h
          · exact h ▸ List.mem_cons_self y ys
          · exact List.mem_cons_of_mem y (List.mem_of_mem_filter (ih h))
      exact List.mem_append_left _ (this _ hx))
    [] []

/-- `checkCircularImprovements` as the validator runs it: over all
`concept_improves_concept` rows of the store. -/
def checkCircularImprovementsDB (s : DB) : Nat :=
  checkCircularImprovements (s.improves.map (fun r => (r.new_concept, r.old_concept)))

/-- The directed new-to-old edge relation of an edge list. -/
def edgeRel (edges : List (V × V)) (a b : V) : Prop := (a, b) ∈ edges

/-! ### Paper reader — `fetchRelatedPapers`
(`src/agents/PaperReaderAgent.ts`, client in
`src/ingestion/semantic-scholar.ts`).

The Semantic Scholar client's `getPaper` returns `null` for a 404
(`Except.ok none`) and re-throws any other failure (`Except.error`);
`getReferences`/`getCitations` catch their own failures and return `[]`,
so they are modelled as total functions.  `storePaper` catches its own
failures and returns `null` (`none`) on error.  The fetched paper data and
the stored row are opaque type parameters.  The loop is given fuel (one
unit per iteration); on exhaustion the papers collected so far are
returned — on an infinite citation graph the source loop need not
terminate, so every theorem quantifies over the fuel. -/

/-- A reference/citation stub as returned by the Semantic Scholar client
(`paperId` may be missing, `citationCount` may be missing). -/
structure Candidate where
  paperId : Option String
  citationCount : Option ℚ
deriving DecidableEq

/-- The external collaborators of `fetchRelatedPapers`. -/
structure ReaderEnv (D P : Type) where
  getPaper : String → Except Unit (Option D)
  getReferences : String → Nat → List Candidate
  getCitations : String → Nat → List Candidate
  storePaper : D → Option P

/-- The sort key of a candidate: `citationCount || 0`. -/
def candKey (c : Candidate) : ℚ := c.citationCount.getD 0

/-- Insert a candidate into a descending-sorted list, after any element
with a strictly greater citation count and before the rest: the insertion
point of a stable descending sort. -/
def insertDesc (c : Candidate) : List Candidate → List Candidate
  | [] => [c]
  | d :: rest =>
    if candKey c < candKey d then d :: insertDesc c rest
    else c :: d :: rest

/-- The candidate sort
`.sort((a, b) => (b.citationCount || 0) - (a.citationCount || 0))`:
JS `Array.prototype.sort` is stable (ES2019), so with this comparator the
result is the unique stable descending reordering, modelled by stable
insertion sort. -/
def sortByCitationDesc : List Candidate → List Candidate
  | [] => []
  | c :: rest => insertDesc c (sortByCitationDesc rest)

/-- One expansion step: fetch up to 10 references and 10 citations, keep
those with a truthy `paperId` not yet visited, sort by descending citation
count, take the top 5, and extract their ids. -/
def selectRelated {D P : Type} (env : ReaderEnv D P) (visited : List String)
    (current : String) : List String :=
  let references := env.getReferences current 10
  let citations := env.getCitations current 10
  ((sortByCitationDesc ((references ++ citations).filter fun c =>
      match c.paperId with
      | some s => decide (s ≠ "" ∧ s ∉ visited)
      | none => false)).take 5).filterMap (fun c => c.paperId)

/-- The `while (papers.length < limit && queue.length > 0)` loop of
`fetchRelatedPapers`: pop the frontier head; skip it if visited; fetch it
(`null` → log-and-continue, a thrown fetch error propagates out of the
surrounding `try` and aborts the walk); store it (a store failure yields
no paper but traversal continues); and, if the limit is not yet reached,
push the selected related ids onto the frontier tail. -/
def fetchLoop {D P : Type} (env : ReaderEnv D P) (limit : Nat) :
    Nat → List String → List String → List P → Except Unit (List P)
  | 0, _, _, papers => Except.ok papers
  | fuel + 1, queue, visited, papers =>
    if papers.length < limit then
      match queue with
      | [] => Except.ok papers
      | current :: rest =>
        if current ∈ visited then fetchLoop env limit fuel rest visited papers
        else
          let visited' := current :: visited
          match env.getPaper current with
          | Except.error e => Except.error e
          | Except.ok none => fetchLoop env limit fuel rest visited' papers
          | Except.ok (some paperData) =>
            let papers' :=
              match env.storePaper paperData with
              | some stored => papers ++ [stored]
              | none => papers
            if papers'.length < limit then
              fetchLoop env limit fuel (rest ++ selectRelated env visited' current)
                visited' papers'
            else fetchLoop env limit fuel rest visited' papers'
    else Except.ok papers

/-- `fetchRelatedPapers(seedPaper, limit)`: BFS from the seed. -/
def fetchRelatedPapers {D P : Type} (env : ReaderEnv D P) (seedPaper : String)
    (limit : Nat) (fuel : Nat) : Except Unit (List P) :=
  fetchLoop env limit fuel [seedPaper] [] []

/-! ### Coordinator — `processPapersBatch`
(`src/agents/base/Coordinator.ts`).

`processPapersBatch` runs `orchestratePaperProcessing` for every paper id
under `Promise.allSettled`; each paper's full sequential pipeline is one
unit of work whose outcome (fulfilled value or rejection reason — a thrown
stage error or the queue's per-unit timeout) is a function of that paper
alone.  `Promise.allSettled` never rejects and reports the outcomes in
input order. -/

/-- A settled promise: `fulfilled` with a value or `rejected` with a
reason. -/
inductive Settled (α ε : Type) where
  | fulfilled : α → Settled α ε
  | rejected : ε → Settled α ε
deriving DecidableEq

/-- Settle one outcome. -/
def toSettled {α ε : Type} : Except ε α → Settled α ε
  | Except.ok a => Settled.fulfilled a
  | Except.error e => Settled.rejected e

/-- `Promise.allSettled`: settle every outcome, in order, never rejecting. -/
def allSettled {α ε : Type} (outcomes : List (Except ε α)) : List (Settled α ε) :=
  outcomes.map toSettled

/-- `processPapersBatch`: settle the per-paper pipeline outcomes. -/
def processPapersBatch {α ε : Type} (orchestrate : String → Except ε α)
    (paperIds : List String) : List (Settled α ε) :=
  allSettled (paperIds.map orchestrate)

/-! ### Notions used by the correctness statements -/

/-- No cycle is reachable from `v` along the directed edges. -/
def SafeFrom (edges : List (V × V)) (v : V) : Prop :=
  ¬ ∃ w, Relation.ReflTransGen (edgeRel edges) v w ∧
    Relation.TransGen (edgeRel edges) w w

/-- Induction motive (node level): a cycle-free `hasCycle` call restores
the recursion stack it was given, and always records its node as visited. -/
def RestoreP1 (edges : List (V × V)) (node : V) (visited stack : List V)
    (hmem : node ∈ allNodesOf edges) (hnv : node ∉ visited) : Prop :=
  (∀ x ∈ stack, x ∈ visited) →
    node ∈ (hasCycle edges node visited stack hmem hnv).2.1 ∧
    ((hasCycle edges node visited stack hmem hnv).1 = false →
      (hasCycle edges node visited stack hmem hnv).2.2 = stack)

/-- Induction motive (loop level) for stack restoration. -/
def RestoreP2 (edges : List (V × V)) (l : List V)
    (hl : ∀ x ∈ l, x ∈ allNodesOf edges) (visited stack : List V) : Prop :=
  (∀ x ∈ stack, x ∈ visited) →
    ((neighborsLoop edges l hl visited stack).1 = false →
      (neighborsLoop edges l hl visited stack).2.2 = stack)

/-- Induction motive (node level): a `hasCycle` call that reports a cycle
is sound — the graph really has a directed cycle — provided every stack
entry reaches the current node. -/
def SoundP1 (edges : List (V × V)) (node : V) (visited stack : List V)
    (hmem : node ∈ allNodesOf edges) (hnv : node ∉ visited) : Prop :=
  (∀ x ∈ stack, x ∈ visited) →
  (∀ u ∈ stack, Relation.ReflTransGen (edgeRel edges) u node) →
  (hasCycle edges node visited stack hmem hnv).1 = true →
  ∃ w, Relation.TransGen (edgeRel edges) w w

/-- Induction motive (loop level) for soundness. -/
def SoundP2 (edges : List (V × V)) (l : List V)
    (hl : ∀ x ∈ l, x ∈ allNodesOf edges) (visited stack : List V) : Prop :=
  ∀ node : V, (∀ x ∈ stack, x ∈ visited) → node ∈ stack →
  (∀ u ∈ stack, Relation.ReflTransGen (edgeRel edges) u node) →
  (∀ n ∈ l, edgeRel edges node n) →
  (neighborsLoop edges l hl visited stack).1 = true →
  ∃ w, Relation.TransGen (edgeRel edges) w w

/-- Induction motive (node level): a cycle-free `hasCycle` call leaves
every off-stack visited node — including everything it visited — safe. -/
def CompleteP1 (edges : List (V × V)) (node : V) (visited stack : List V)
    (hmem : node ∈ allNodesOf edges) (hnv : node ∉ visited) : Prop :=
  (∀ x ∈ stack, x ∈ visited) →
  (∀ x ∈ visited, x ∉ stack → SafeFrom edges x) →
  (hasCycle edges node visited stack hmem hnv).1 = false →
  ∀ x ∈ (hasCycle edges node visited stack hmem hnv).2.1 ++ visited,
    x ∉ stack → SafeFrom edges x

/-- Induction motive (loop level) for completeness: a cycle-free neighbor
loop additionally certifies all scanned neighbors safe. -/
def CompleteP2 (edges : List (V × V)) (l : List V)
    (hl : ∀ x ∈ l, x ∈ allNodesOf edges) (visited stack : List V) : Prop :=
  (∀ x ∈ stack, x ∈ visited) →
  (∀ x ∈ visited, x ∉ stack → SafeFrom edges x) →
  (neighborsLoop edges l hl visited stack).1 = false →
  (∀ x ∈ (neighborsLoop edges l hl visited stack).2.1 ++ visited,
    x ∉ stack → SafeFrom edges x) ∧
  (∀ n ∈ l, SafeFrom edges n)

/-! ### Concrete instances for counterexamples and witnesses -/

/-- Pass-1 oracle output introducing two well-formed concepts. -/
def twoConceptsRaw : ExtractedEntities where
  concepts :=
    [⟨"Concept Alpha", none, "a sufficiently long description", none, mkRat 9 10⟩,
     ⟨"Concept Beta", none, "another sufficiently long text", none, mkRat 9 10⟩]
  methods := []
  datasets := []
  metrics := []

/-- A classification oracle that always answers `improves_on`. -/
def alwaysImproves : ConceptRow → ConceptRow → Option ClassifyResult :=
  fun _ _ => some ⟨true, "improves_on", some "quality", some (mkRat 8 10)⟩

/-- The store after extracting `twoConceptsRaw` for paper `p1`. -/
def dbTwoConcepts : DB := extractPipeline dbOps "p1" twoConceptsRaw DB.empty

/-- The store after then mapping relationships for `p1` with the
always-`improves_on` oracle: both directed improvement edges are persisted. -/
def dbWithCycle : DB := mapImprovements alwaysImproves "p1" dbTwoConcepts

/-- Pass-1 oracle output with one concept, one method and one dataset,
all passing validation. -/
def oneOfEachRaw : ExtractedEntities where
  concepts := [⟨"Gaussian Splatting", none, "a long enough concept text", none, mkRat 9 10⟩]
  methods := [⟨"Adaptive Density Control", none, "a long enough method text", none, mkRat 9 10⟩]
  datasets := [⟨"Mip-NeRF 360", "a benchmark dataset", none⟩]
  metrics := []

/-- The store after extracting `oneOfEachRaw` for paper `p1`. -/
def dbOneOfEach : DB := extractPipeline dbOps "p1" oneOfEachRaw DB.empty

/-- Store state for the uniqueness-race scenario: a call counter for
`getConceptByName` and the list of (paper, concept) links made. -/
def RaceState : Type := Nat × List (String × String)

/-- A store in which the concept's row is created by a concurrent worker
between this worker's lookup and its insert: every lookup misses (and is
counted), every insert is rejected with a uniqueness violation, links
always succeed and are recorded. -/
def raceOps : StoreOps RaceState where
  getConceptByName := fun s _ => (none, (s.1 + 1, s.2))
  insertConcept := fun s _ => (Except.error (), s)
  linkPaperToConcept := fun s p cid _ => (Except.ok (), (s.1, s.2 ++ [(p, cid)]))
  getMethodByName := fun s _ => (none, s)
  insertMethod := fun s _ => (Except.error (), s)
  linkPaperToMethod := fun s p mid => (Except.ok (), (s.1, s.2 ++ [(p, mid)]))
  getDatasetByName := fun s _ => (none, s)
  insertDataset := fun s _ => (Except.error (), s)
  linkPaperToDataset := fun s p did => (Except.ok (), (s.1, s.2 ++ [(p, did)]))

/-- A concept whose insert will race in the scenario above. -/
def racedConcept : ExtractedConcept :=
  ⟨"Raced Concept", none, "a long enough description here", none, mkRat 3 4⟩

/-- Citation-graph snapshot in which node `x` is unreachable: fetching it
throws (a non-404 failure), while the seed `s` resolves and lists `x` and
`y` as references. -/
def throwingEnv : ReaderEnv String String where
  getPaper := fun id => if id = "x" then Except.error () else Except.ok (some id)
  getReferences := fun id _ =>
    if id = "s" then [⟨some "x", some 1⟩, ⟨some "y", some 0⟩] else []
  getCitations := fun _ _ => []
  storePaper := fun d => some d

/-- The same snapshot with `x` merely missing (404 → `null`): the client
logs and returns `null` instead of throwing. -/
def notFoundEnv : ReaderEnv String String where
  getPaper := fun id => if id = "x" then Except.ok none else Except.ok (some id)
  getReferences := fun id _ =>
    if id = "s" then [⟨some "x", some 1⟩, ⟨some "y", some 0⟩] else []
  getCitations := fun _ _ => []
  storePaper := fun d => some d

/-- A per-paper pipeline outcome function that fails on paper `p2` only. -/
def failsOnP2 : String → Except String String :=
  fun p => if p = "p2" then Except.error "stage threw" else Except.ok p

/-- A method that the claim's rule keeps but pass 3 drops: truthy name and
description, confidence 0.9, but the description has only 5 characters. -/
def shortDescMethod : ExtractedMethod := ⟨"EWA", none, "short", none, mkRat 9 10⟩

/-! ## Theorems -/

/-! ### C10 — `calculateSimilarity` on two empty strings -/

/-- C10: with both inputs empty, `calculateSimilarity` computes
`1 - 0/0`, i.e. NaN, rather than a number in `[0,1]`; consequently
`areSimilarEntities "" ""` is false for every threshold, even though the
two names are identical. -/
theorem calculateSimilarity_empty_nan :
    calculateSimilarity "" "" = JsNum.nan ∧
    ∀ t : ℚ, areSimilarEntities "" "" t = false := by
  have h1 : calculateSimilarity "" "" = JsNum.nan := by
    show jsSub (JsNum.num 1) (jsDivNat (levEntry [] [] 0 0) (max 0 0)) = JsNum.nan
    rw [show levEntry [] [] 0 0 = 0 from by simp [levEntry]]
    rfl
  refine ⟨h1, fun t => ?_⟩
  show jsGe (calculateSimilarity "" "") (JsNum.num t) = false
  rw [h1]
  rfl

/-! ### C6 — the pass-3 keep rules -/

/-- C6 counterexample: the claim's rule for methods — keep iff name,
description and confidence ≥ 0.5 — is false: `validateAndScore` also
requires `description.length > 10` and ignores a method's confidence.
`shortDescMethod` (name `"EWA"`, description `"short"`, confidence 0.9)
is kept by the claim's rule but dropped by the code. -/
theorem validateAndScore_method_rule_cex :
    ¬ (∀ e : ExtractedEntities, (validateAndScore e).methods =
        e.methods.filter fun m =>
          decide (m.name ≠ "" ∧ m.description ≠ "" ∧ mkRat 1 2 ≤ m.confidence)) := by
  intro h
  have h2 := h ⟨[], [shortDescMethod], [], []⟩
  revert h2
  decide

/-- C6 amended: pass 3 keeps a concept iff it has a (nonempty) name and
description and confidence at least 0.5, multiplying a surviving concept's
confidence by 0.8 exactly when its description is shorter than 20
characters; it keeps a method iff it has a name and a description of
length strictly greater than 10 (no confidence test); and it keeps a
dataset iff it has a name and a description. -/
theorem validateAndScore_keep_rules (e : ExtractedEntities) :
    (∀ m : ExtractedMethod, m ∈ (validateAndScore e).methods ↔
      m ∈ e.methods ∧ m.name ≠ "" ∧ m.description ≠ "" ∧ 10 < m.description.length) ∧
    (∀ d : ExtractedDataset, d ∈ (validateAndScore e).datasets ↔
      d ∈ e.datasets ∧ d.name ≠ "" ∧ d.description ≠ "") ∧
    (∀ c : ExtractedConcept, c ∈ e.concepts → c.name ≠ "" → c.description ≠ "" →
      mkRat 1 2 ≤ c.confidence →
      (if c.description.length < 20 then
        { c with confidence := c.confidence * mkRat 4 5 } else c)
        ∈ (validateAndScore e).concepts) ∧
    (∀ c' : ExtractedConcept, c' ∈ (validateAndScore e).concepts →
      ∃ c, c ∈ e.concepts ∧ c.name ≠ "" ∧ c.description ≠ "" ∧ mkRat 1 2 ≤ c.confidence ∧
        c' = if c.description.length < 20 then
          { c with confidence := c.confidence * mkRat 4 5 } else c) := by
  refine ⟨?_, ?_, ?_, ?_⟩
  · intro m
    simp [validateAndScore, List.mem_filter, and_assoc]
  · intro d
    simp [validateAndScore, List.mem_filter, and_assoc]
  · intro c hc hn hd hconf
    refine List.mem_filterMap.mpr ⟨c, hc, ?_⟩
    unfold validConcept
    rw [if_neg (not_or.mpr ⟨hn, hd⟩), if_neg (not_lt.mpr hconf)]
    split <;> rfl
  · intro c' hmem
    rcases List.mem_filterMap.mp hmem with ⟨c, hc, hv⟩
    unfold validConcept at hv
    split_ifs at hv with h1 h2 h3
    · refine ⟨c, hc, (not_or.mp h1).1, (not_or.mp h1).2, not_lt.mp h2, ?_⟩
      rw [if_pos h3]
      exact (Option.some.inj hv).symm
    · refine ⟨c, hc, (not_or.mp h1).1, (not_or.mp h1).2, not_lt.mp h2, ?_⟩
      rw [if_neg h3]
      exact (Option.some.inj hv).symm

/-- C6 witness: the amended rules applied to a concrete collection — a
surviving method, and a surviving concept with the 0.8 penalty applied
(its description is 14 characters). -/
theorem validateAndScore_keep_rules_witness :
    (⟨"Rasterizer", none, "a long enough method text", none, mkRat 1 2⟩ : ExtractedMethod) ∈
      (validateAndScore ⟨[⟨"Splatting", none, "short concept.", none, mkRat 1 2⟩],
        [⟨"Rasterizer", none, "a long enough method text", none, mkRat 1 2⟩], [], []⟩).methods ∧
    (⟨"Splatting", none, "short concept.", none, mkRat 1 2 * mkRat 4 5⟩ : ExtractedConcept) ∈
      (validateAndScore ⟨[⟨"Splatting", none, "short concept.", none, mkRat 1 2⟩],
        [⟨"Rasterizer", none, "a long enough method text", none, mkRat 1 2⟩], [], []⟩).concepts := by
  have h := validateAndScore_keep_rules
    ⟨[⟨"Splatting", none, "short concept.", none, mkRat 1 2⟩],
      [⟨"Rasterizer", none, "a long enough method text", none, mkRat 1 2⟩], [], []⟩
  constructor
  · exact (h.1 _).mpr ⟨by decide, by decide, by decide, by decide⟩
  · have h2 := h.2.2.1 ⟨"Splatting", none, "short concept.", none, mkRat 1 2⟩
      (by decide) (by decide) (by decide) (by decide)
    rw [if_pos (by decide : ("short concept." : String).length < 20)] at h2
    exact h2

/-! ### C5 — `processPapersBatch` settles every paper -/

/-- C5: `processPapersBatch` returns exactly one settled result per input
paper and never throws (it is a total function into a plain list): the
`i`-th result is the settled outcome of the `i`-th paper's own pipeline,
so failures (including a per-unit timeout, which is just a rejected
outcome) of any subset of papers leave every other paper's result intact:
replacing the outcome function by one that agrees on paper `i` leaves
result `i` unchanged, whatever the two do on the siblings. -/
theorem processPapersBatch_settles_all {α ε : Type} (orchestrate : String → Except ε α)
    (paperIds : List String) :
    (processPapersBatch orchestrate paperIds).length = paperIds.length ∧
    (∀ i : Nat, (processPapersBatch orchestrate paperIds)[i]? =
      (paperIds[i]?).map fun p => toSettled (orchestrate p)) ∧
    (∀ (orchestrate2 : String → Except ε α) (i : Nat) (p : String),
      paperIds[i]? = some p → orchestrate p = orchestrate2 p →
      (processPapersBatch orchestrate paperIds)[i]? =
        (processPapersBatch orchestrate2 paperIds)[i]?) := by
  refine ⟨by simp [processPapersBatch, allSettled], ?_, ?_⟩
  · intro i
    simp only [processPapersBatch, allSettled, List.getElem?_map]
    cases paperIds[i]? <;> rfl
  · intro o2 i p hp he
    simp [processPapersBatch, allSettled, hp, he]

/-- C5 witness: a batch of three papers in which `p2`'s pipeline throws —
the batch still has three settled results, `p1` and `p3` fulfilled, `p2`
rejected. -/
theorem processPapersBatch_settles_all_witness :
    (processPapersBatch failsOnP2 ["p1", "p2", "p3"]).length = 3 ∧
    (processPapersBatch failsOnP2 ["p1", "p2", "p3"])[1]? =
      some (Settled.rejected "stage threw") ∧
    (processPapersBatch failsOnP2 ["p1", "p2", "p3"])[2]? =
      some (Settled.fulfilled "p3") := by
  have h := processPapersBatch_settles_all failsOnP2 ["p1", "p2", "p3"]
  have h3 := h.2.2 failsOnP2 1 "p2" (by decide) rfl
  exact ⟨h.1, by rw [h.2.1 1]; decide, by rw [h.2.1 2]; decide⟩

/-! ### C3 — a uniqueness rejection during persistence -/

/-- C3 counterexample: run `storeEntities` on one concept against a store
in which the lookup misses but the insert is rejected by the uniqueness
constraint (the store races: the row appears between the two calls).  The
state records how often `getConceptByName` was called and which links were
made: the result `(1, [])` shows the lookup ran exactly once — there is no
fallback re-read — and the paper was never linked to the concept, where
the claim requires a re-read and a link. -/
theorem unique_violation_no_reread_no_link :
    storeEntities raceOps "p" ⟨[racedConcept], [], [], []⟩ ((0, []) : RaceState) =
      ((1, []) : RaceState) := rfl

/-- C3 amended: when a concept's lookup misses and its insert is then
rejected with a uniqueness violation, `storeEntities` catches the
rejection at the item level and skips the item: no re-read, no link, the
store is left exactly as the failed insert left it, and processing
continues with the remaining items — the rejection is never surfaced as an
error of `storeEntities`. -/
theorem unique_violation_skips_item {S : Type} (ops : StoreOps S)
    (paperId : String) (c : ExtractedConcept) (cs : List ExtractedConcept)
    (ms : List ExtractedMethod) (ds : List ExtractedDataset)
    (mets : List ExtractedMetric) (s s1 s2 : S) (e : Unit)
    (hget : ops.getConceptByName s
      (c.normalized_name.getD (normalizeEntityName c.name)) = (none, s1))
    (hins : ops.insertConcept s1
      ⟨c.name, c.normalized_name.getD (normalizeEntityName c.name), c.description,
        c.category, paperId, c.confidence⟩ = (Except.error e, s2)) :
    storeEntities ops paperId ⟨c :: cs, ms, ds, mets⟩ s =
      storeEntities ops paperId ⟨cs, ms, ds, mets⟩ s2 := by
  simp only [storeEntities, List.foldl_cons]
  have hone : storeOneConcept ops paperId c s = s2 := by
    simp only [storeOneConcept, hget, hins]
  rw [hone]

/-- C3 witness: the amended behavior on the racing store. -/
theorem unique_violation_skips_item_witness :
    storeEntities raceOps "p" ⟨[racedConcept], [], [], []⟩ ((0, []) : RaceState) =
      storeEntities raceOps "p" ⟨[], [], [], []⟩ ((1, []) : RaceState) :=
  unique_violation_skips_item raceOps "p" racedConcept [] [] [] []
    (0, []) (1, []) (1, []) () rfl rfl

/-! ### C2 — re-running `extract` on a fully persisted paper -/

/-- C2 counterexample: re-linking an already-linked (paper, concept) pair
is not a no-op at the store level — `linkPaperToConcept` inserts into
`paper_introduces_concept`, whose `UNIQUE(paper_id, concept_id)`
constraint rejects the insert, and `queries.ts` throws the rejection
(`if (error) throw error`).  In the store produced by one `extract` run,
re-linking paper `p1` to concept `0` errors (the state is unchanged). -/
theorem relink_already_linked_errors :
    dbOps.linkPaperToConcept dbOneOfEach "p1" "0" (mkRat 9 10) =
      (Except.error (), dbOneOfEach) := rfl

/-- Pass-2 lookups through `dbOps` do not change the store (concepts). -/
theorem disambiguateConcept_dbOps_state (c : ExtractedConcept) (s : DB) :
    (disambiguateConcept dbOps c s).2 = s := by
  unfold disambiguateConcept
  rcases h : s.concepts.find? (fun r => r.normalized_name = normalizeEntityName c.name)
    with _ | r <;> simp [dbOps, h]

/-- Pass-2 lookups through `dbOps` do not change the store (methods). -/
theorem disambiguateMethod_dbOps_state (m : ExtractedMethod) (s : DB) :
    (disambiguateMethod dbOps m s).2 = s := by
  unfold disambiguateMethod
  rcases h : s.methods.find? (fun r => r.normalized_name = normalizeEntityName m.name)
    with _ | r <;> simp [dbOps, h]

/-- Pass-2 lookups through `dbOps` do not change the store (datasets). -/
theorem disambiguateDataset_dbOps_state (d : ExtractedDataset) (s : DB) :
    (disambiguateDataset dbOps d s).2 = s := by
  unfold disambiguateDataset
  rcases h : s.datasets.find? (fun r => r.name = d.name) with _ | r <;> simp [dbOps, h]

/-- A state-preserving per-item step folds to a state-preserving pass. -/
theorem disambiguateList_state {S α : Type} (step : α → S → α × S)
    (hstep : ∀ a s, (step a s).2 = s) :
    ∀ (l : List α) (s : S), (disambiguateList step l s).2 = s := by
  intro l
  induction l with
  | nil => intro s; rfl
  | cons a rest ih =>
    intro s
    simp only [disambiguateList]
    rw [ih, hstep]

/-- Pass 2 over the sequential store is pure reads: the store is unchanged. -/
theorem disambiguateEntities_dbOps_state (e : ExtractedEntities) (s : DB) :
    (disambiguateEntities dbOps e s).2 = s := by
  unfold disambiguateEntities
  rw [disambiguateList_state _ disambiguateDataset_dbOps_state,
    disambiguateList_state _ disambiguateMethod_dbOps_state,
    disambiguateList_state _ disambiguateConcept_dbOps_state]

/-- Persisting one concept that is already stored and linked is a no-op on
the sequential store: the lookup hits, the re-link is rejected by
`UNIQUE(paper_id, concept_id)`, and the rejection is caught. -/
theorem storeOneConcept_dbOps_noop (p : String) (c : ExtractedConcept) (db : DB)
    (h : (match db.concepts.find?
        (fun r => r.normalized_name = c.normalized_name.getD (normalizeEntityName c.name)) with
      | some row => db.picLinks.any (fun l => l.1 = p ∧ l.2.1 = row.id)
      | none => false) = true) :
    storeOneConcept dbOps p c db = db := by
  rcases hf : db.concepts.find?
      (fun r => r.normalized_name = c.normalized_name.getD (normalizeEntityName c.name))
    with _ | row
  · rw [hf] at h
    simp at h
  · rw [hf] at h
    replace h : db.picLinks.any (fun l => l.1 = p ∧ l.2.1 = row.id) = true := h
    simp only [storeOneConcept, dbOps, hf]
    rw [if_pos h]

/-- Persisting one already-stored, already-linked method is a no-op. -/
theorem storeOneMethod_dbOps_noop (p : String) (m : ExtractedMethod) (db : DB)
    (h : (match db.methods.find?
        (fun r => r.normalized_name = m.normalized_name.getD (normalizeEntityName m.name)) with
      | some row => db.pumLinks.any (fun l => l.1 = p ∧ l.2 = row.id)
      | none => false) = true) :
    storeOneMethod dbOps p m db = db := by
  rcases hf : db.methods.find?
      (fun r => r.normalized_name = m.normalized_name.getD (normalizeEntityName m.name))
    with _ | row
  · rw [hf] at h
    simp at h
  · rw [hf] at h
    replace h : db.pumLinks.any (fun l => l.1 = p ∧ l.2 = row.id) = true := h
    simp only [storeOneMethod, dbOps, hf]
    rw [if_pos h]

/-- Persisting one already-stored, already-linked dataset is a no-op. -/
theorem storeOneDataset_dbOps_noop (p : String) (d : ExtractedDataset) (db : DB)
    (h : (match db.datasets.find? (fun r => r.name = d.name) with
      | some row => db.pedLinks.any (fun l => l.1 = p ∧ l.2 = row.id)
      | none => false) = true) :
    storeOneDataset dbOps p d db = db := by
  rcases hf : db.datasets.find? (fun r => r.name = d.name) with _ | row
  · rw [hf] at h
    simp at h
  · rw [hf] at h
    replace h : db.pedLinks.any (fun l => l.1 = p ∧ l.2 = row.id) = true := h
    simp only [storeOneDataset, dbOps, hf]
    rw [if_pos h]

/-- Folding a step that is a no-op on `db` for every list element leaves
`db` unchanged. -/
theorem foldl_noop {α : Type} (f : α → DB → DB) (db : DB) :
    ∀ l : List α, (∀ a ∈ l, f a db = db) → l.foldl (fun st a => f a st) db = db := by
  intro l
  induction l with
  | nil => intro _; rfl
  | cons a rest ih =>
    intro h
    simp only [List.foldl_cons]
    rw [h a (List.mem_cons_self a rest)]
    exact ih (fun x hx => h x (List.mem_cons_of_mem a hx))

/-- C2 amended: re-running `extract` on a paper whose surviving entities
are all already stored under their keys and already linked to the paper
creates zero new entity rows and zero new edge rows — the store is
bit-for-bit unchanged.  However, re-linking an already-linked
(paper, concept) pair is not a silent no-op but a uniqueness rejection
thrown by `linkPaperToConcept` (and caught inside `storeEntities`): the
second conjunct shows any already-present pair makes the link call return
an error with the store unchanged. -/
theorem extract_rerun_creates_no_rows (p : String) (raw : ExtractedEntities) (db : DB)
    (hc : ∀ c ∈ (validateAndScore (disambiguateEntities dbOps raw db).1).concepts,
      (match db.concepts.find?
          (fun r => r.normalized_name = c.normalized_name.getD (normalizeEntityName c.name)) with
        | some row => db.picLinks.any (fun l => l.1 = p ∧ l.2.1 = row.id)
        | none => false) = true)
    (hm : ∀ m ∈ (validateAndScore (disambiguateEntities dbOps raw db).1).methods,
      (match db.methods.find?
          (fun r => r.normalized_name = m.normalized_name.getD (normalizeEntityName m.name)) with
        | some row => db.pumLinks.any (fun l => l.1 = p ∧ l.2 = row.id)
        | none => false) = true)
    (hd : ∀ d ∈ (validateAndScore (disambiguateEntities dbOps raw db).1).datasets,
      (match db.datasets.find? (fun r => r.name = d.name) with
        | some row => db.pedLinks.any (fun l => l.1 = p ∧ l.2 = row.id)
        | none => false) = true) :
    extractPipeline dbOps p raw db = db ∧
    ∀ (q cid : String) (conf : ℚ),
      db.picLinks.any (fun l => l.1 = q ∧ l.2.1 = cid) = true →
      dbOps.linkPaperToConcept db q cid conf = (Except.error (), db) := by
  constructor
  · show storeEntities dbOps p (validateAndScore (disambiguateEntities dbOps raw db).1)
      (disambiguateEntities dbOps raw db).2 = db
    rw [disambiguateEntities_dbOps_state]
    show (((validateAndScore (disambiguateEntities dbOps raw db).1).datasets).foldl
        (fun st d => storeOneDataset dbOps p d st)
        (((validateAndScore (disambiguateEntities dbOps raw db).1).methods).foldl
          (fun st m => storeOneMethod dbOps p m st)
          (((validateAndScore (disambiguateEntities dbOps raw db).1).concepts).foldl
            (fun st c => storeOneConcept dbOps p c st) db)) = db)
    rw [foldl_noop _ _ _ (fun c hcm => storeOneConcept_dbOps_noop p c db (hc c hcm))]
    rw [foldl_noop _ _ _ (fun m hmm => storeOneMethod_dbOps_noop p m db (hm m hmm))]
    rw [foldl_noop _ _ _ (fun d hdm => storeOneDataset_dbOps_noop p d db (hd d hdm))]
  · intro q cid conf h
    simp only [dbOps]
    rw [if_pos h]

/-- C2 witness: extracting `oneOfEachRaw` once from the empty store and
re-running the same extraction leaves the store unchanged. -/
theorem extract_rerun_creates_no_rows_witness :
    extractPipeline dbOps "p1" oneOfEachRaw dbOneOfEach = dbOneOfEach ∧
    dbOps.linkPaperToConcept dbOneOfEach "p1" "0" (mkRat 1 2) =
      (Except.error (), dbOneOfEach) := by
  have h := extract_rerun_creates_no_rows "p1" oneOfEachRaw dbOneOfEach
    (by decide) (by decide) (by decide)
  exact ⟨h.1, h.2 "p1" "0" (mkRat 1 2) (by decide)⟩

/-! ### C4 — fetch failures during traversal -/

/-- C4 counterexample: in `throwingEnv`, node `x` (the seed's
highest-citation reference) is unreachable with a non-404 failure: the
client re-throws, and `fetchRelatedPapers`'s own `catch` logs and
re-throws (`throw error`), so the whole walk aborts with the error instead
of dropping `x` and continuing with `y`. -/
theorem fetch_failure_aborts_traversal :
    fetchRelatedPapers throwingEnv "s" 3 10 = Except.error () := rfl

/-- C4 amended: only a not-found paper (the client's 404 → `null` path) is
logged and dropped, with traversal continuing on the remaining frontier;
a fetch failure that throws is re-thrown by `fetchRelatedPapers` and
aborts the walk.  Three parts: (1) the not-found skip-and-continue
equation; (2) a thrown fetch failure propagates out of the loop;
(3) against a fetcher that never throws, the traversal always returns
normally. -/
theorem traversal_notFound_skips_error_aborts {D P : Type} (env : ReaderEnv D P) :
    (∀ (limit fuel : Nat) (current : String) (rest visited : List String)
      (papers : List P),
      papers.length < limit → current ∉ visited →
      env.getPaper current = Except.ok none →
      fetchLoop env limit (fuel + 1) (current :: rest) visited papers =
        fetchLoop env limit fuel rest (current :: visited) papers) ∧
    (∀ (limit fuel : Nat) (current : String) (rest visited : List String)
      (papers : List P) (e : Unit),
      papers.length < limit → current ∉ visited →
      env.getPaper current = Except.error e →
      fetchLoop env limit (fuel + 1) (current :: rest) visited papers =
        Except.error e) ∧
    ((∀ id, env.getPaper id ≠ Except.error ()) →
      ∀ (seed : String) (limit fuel : Nat),
        ∃ ps, fetchRelatedPapers env seed limit fuel = Except.ok ps) := by
  refine ⟨?_, ?_, ?_⟩
  · intro limit fuel current rest visited papers hlt hnv hget
    simp only [fetchLoop, if_pos hlt, if_neg hnv, hget]
  · intro limit fuel current rest visited papers e hlt hnv hget
    simp only [fetchLoop, if_pos hlt, if_neg hnv, hget]
  · intro h seed limit fuel
    suffices hloop : ∀ (fuel : Nat) (queue visited : List String) (papers : List P),
        ∃ ps, fetchLoop env limit fuel queue visited papers = Except.ok ps from
      hloop fuel [seed] [] []
    intro fuel
    induction fuel with
    | zero => intro queue visited papers; exact ⟨papers, rfl⟩
    | succ fuel ih =>
      intro queue visited papers
      by_cases hlt : papers.length < limit
      · cases queue with
        | nil => exact ⟨papers, by simp only [fetchLoop, if_pos hlt]⟩
        | cons current rest =>
          by_cases hv : current ∈ visited
          · obtain ⟨ps, hps⟩ := ih rest visited papers
            exact ⟨ps, by simp only [fetchLoop, if_pos hlt, if_pos hv]; exact hps⟩
          · rcases hg : env.getPaper current with e | op
            · cases e
              exact absurd hg (h current)
            · cases op with
              | none =>
                obtain ⟨ps, hps⟩ := ih rest (current :: visited) papers
                exact ⟨ps, by
                  simp only [fetchLoop, if_pos hlt, if_neg hv, hg]
                  exact hps⟩
              | some pd =>
                cases hs : env.storePaper pd with
                | none =>
                  obtain ⟨ps, hps⟩ :=
                    ih (rest ++ selectRelated env (current :: visited) current)
                      (current :: visited) papers
                  exact ⟨ps, by
                    simp only [fetchLoop, if_pos hlt, if_neg hv, hg, hs]
                    exact hps⟩
                | some stored =>
                  by_cases h2 : (papers ++ [stored]).length < limit
                  · obtain ⟨ps, hps⟩ :=
                      ih (rest ++ selectRelated env (current :: visited) current)
                        (current :: visited) (papers ++ [stored])
                    exact ⟨ps, by
                      simp only [fetchLoop, if_pos hlt, if_neg hv, hg, hs, if_pos h2]
                      exact hps⟩
                  · obtain ⟨ps, hps⟩ := ih rest (current :: visited) (papers ++ [stored])
                    exact ⟨ps, by
                      simp only [fetchLoop, if_pos hlt, if_neg hv, hg, hs, if_neg h2]
                      exact hps⟩
      · exact ⟨papers, by simp only [fetchLoop, if_neg hlt]⟩

/-- C4 witness: in `notFoundEnv` (same graph, `x` is a 404), the walk
skips `x` and continues — the skip equation at the state reached after the
seed's expansion, and the whole traversal returning normally. -/
theorem traversal_notFound_skips_error_aborts_witness :
    fetchLoop notFoundEnv 3 9 ["x", "y"] ["s"] ["s"] =
      fetchLoop notFoundEnv 3 8 ["y"] ["x", "s"] ["s"] ∧
    (∃ ps, fetchRelatedPapers notFoundEnv "s" 3 10 = Except.ok ps) := by
  constructor
  · exact (traversal_notFound_skips_error_aborts notFoundEnv).1 3 8 "x" ["y"] ["s"] ["s"]
      (by decide) (by decide) rfl
  · exact (traversal_notFound_skips_error_aborts notFoundEnv).2.2
      (fun id => by
        simp only [notFoundEnv]
        split <;> simp)
      "s" 3 10

/-! ### C1 — self-loops and cycles among improvement edges -/

/-- `storeOneConcept` touches only the concept and link tables. -/
theorem storeOneConcept_dbOps_improves (p : String) (c : ExtractedConcept) (s : DB) :
    (storeOneConcept dbOps p c s).improves = s.improves := by
  rcases hf : s.concepts.find?
      (fun r => r.normalized_name = c.normalized_name.getD (normalizeEntityName c.name))
    with _ | row
  · simp only [storeOneConcept, dbOps, hf]
    repeat' split
    all_goals rfl
  · simp only [storeOneConcept, dbOps, hf]
    repeat' split
    all_goals rfl

/-- `storeOneMethod` touches only the method and link tables. -/
theorem storeOneMethod_dbOps_improves (p : String) (m : ExtractedMethod) (s : DB) :
    (storeOneMethod dbOps p m s).improves = s.improves := by
  rcases hf : s.methods.find?
      (fun r => r.normalized_name = m.normalized_name.getD (normalizeEntityName m.name))
    with _ | row
  · simp only [storeOneMethod, dbOps, hf]
    repeat' split
    all_goals rfl
  · simp only [storeOneMethod, dbOps, hf]
    repeat' split
    all_goals rfl

/-- `storeOneDataset` touches only the dataset and link tables. -/
theorem storeOneDataset_dbOps_improves (p : String) (d : ExtractedDataset) (s : DB) :
    (storeOneDataset dbOps p d s).improves = s.improves := by
  rcases hf : s.datasets.find? (fun r => r.name = d.name) with _ | row
  · simp only [storeOneDataset, dbOps, hf]
    repeat' split
    all_goals rfl
  · simp only [storeOneDataset, dbOps, hf]
    repeat' split
    all_goals rfl

/-- Folding an improvement-preserving step preserves the improvement table. -/
theorem foldl_improves {α : Type} (f : α → DB → DB)
    (hf : ∀ a s, (f a s).improves = s.improves) :
    ∀ (l : List α) (s : DB), (l.foldl (fun st a => f a st) s).improves = s.improves := by
  intro l
  induction l with
  | nil => intro s; rfl
  | cons a rest ih =>
    intro s
    simp only [List.foldl_cons]
    rw [ih, hf]

/-- The extraction pipeline never writes improvement edges. -/
theorem extractPipeline_dbOps_improves (p : String) (raw : ExtractedEntities) (s : DB) :
    (extractPipeline dbOps p raw s).improves = s.improves := by
  show (storeEntities dbOps p (validateAndScore (disambiguateEntities dbOps raw s).1)
    (disambiguateEntities dbOps raw s).2).improves = s.improves
  rw [disambiguateEntities_dbOps_state]
  show (((validateAndScore (disambiguateEntities dbOps raw s).1).datasets).foldl
      (fun st d => storeOneDataset dbOps p d st)
      (((validateAndScore (disambiguateEntities dbOps raw s).1).methods).foldl
        (fun st m => storeOneMethod dbOps p m st)
        (((validateAndScore (disambiguateEntities dbOps raw s).1).concepts).foldl
          (fun st c => storeOneConcept dbOps p c st) s))).improves = s.improves
  rw [foldl_improves _ (storeOneDataset_dbOps_improves p),
    foldl_improves _ (storeOneMethod_dbOps_improves p),
    foldl_improves _ (storeOneConcept_dbOps_improves p)]

/-- An edge present after one candidate-classification step was either
already present or runs from the paper's concept to that candidate. -/
theorem mapOneCandidate_mem (cl : ConceptRow → ConceptRow → Option ClassifyResult)
    (c o : ConceptRow) (s : DB) (r : ImprovesRow)
    (hr : r ∈ (mapOneCandidate cl c o s).improves) :
    r ∈ s.improves ∨ (r.new_concept = c.id ∧ r.old_concept = o.id) := by
  unfold mapOneCandidate at hr
  rcases hcl : cl c o with _ | res
  · rw [hcl] at hr
    exact Or.inl hr
  · simp only [hcl] at hr
    by_cases hrel : res.has_relationship = true ∧ res.relationship_type = "improves_on"
    · rw [if_pos hrel] at hr
      unfold createConceptImprovement at hr
      by_cases hdup : s.improves.any
          (fun e => e.new_concept = c.id ∧ e.old_concept = o.id) = true
      · rw [if_pos hdup] at hr
        exact Or.inl hr
      · rw [if_neg hdup] at hr
        simp only [List.mem_append, List.mem_singleton] at hr
        rcases hr with h | h
        · exact Or.inl h
        · subst h
          exact Or.inr ⟨rfl, rfl⟩
    · rw [if_neg hrel] at hr
      exact Or.inl hr

/-- An edge present after processing one concept's candidate loop was
either already present or is not a self-loop (candidates exclude the
concept itself via `.neq('id', concept.id)`). -/
theorem mapCandidates_fold_mem (cl : ConceptRow → ConceptRow → Option ClassifyResult)
    (c : ConceptRow) :
    ∀ (related : List ConceptRow) (s : DB) (r : ImprovesRow),
      (∀ o ∈ related, o.id ≠ c.id) →
      r ∈ (related.foldl (fun st o => mapOneCandidate cl c o st) s).improves →
      r ∈ s.improves ∨ r.new_concept ≠ r.old_concept := by
  intro related
  induction related with
  | nil => intro s r _ hr; exact Or.inl hr
  | cons o rest ih =>
    intro s r hneq hr
    simp only [List.foldl_cons] at hr
    rcases ih _ r (fun x hx => hneq x (List.mem_cons_of_mem o hx)) hr with h | h
    · rcases mapOneCandidate_mem cl c o s r h with h2 | h2
      · exact Or.inl h2
      · refine Or.inr ?_
        rw [h2.1, h2.2]
        intro he
        exact hneq o (List.mem_cons_self o rest) he.symm
    · exact Or.inr h

/-- Same for `mapOneConcept`. -/
theorem mapOneConcept_mem (cl : ConceptRow → ConceptRow → Option ClassifyResult)
    (c : ConceptRow) (s : DB) (r : ImprovesRow)
    (hr : r ∈ (mapOneConcept cl c s).improves) :
    r ∈ s.improves ∨ r.new_concept ≠ r.old_concept := by
  unfold mapOneConcept at hr
  refine mapCandidates_fold_mem cl c _ s r ?_ hr
  intro o ho
  have h1 : o ∈ s.concepts.filter (fun x => x.id ≠ c.id) := List.mem_of_mem_take ho
  have h2 := List.of_mem_filter h1
  exact of_decide_eq_true h2

/-- Same for a full `mapImprovements` run. -/
theorem mapImprovements_mem (cl : ConceptRow → ConceptRow → Option ClassifyResult)
    (p : String) (s : DB) (r : ImprovesRow)
    (hr : r ∈ (mapImprovements cl p s).improves) :
    r ∈ s.improves ∨ r.new_concept ≠ r.old_concept := by
  unfold mapImprovements at hr
  have hgen : ∀ (l : List ConceptRow) (s : DB),
      r ∈ (l.foldl (fun st c => mapOneConcept cl c st) s).improves →
      r ∈ s.improves ∨ r.new_concept ≠ r.old_concept := by
    intro l
    induction l with
    | nil => intro s hr2; exact Or.inl hr2
    | cons c rest ih =>
      intro s hr2
      simp only [List.foldl_cons] at hr2
      rcases ih _ hr2 with h | h
      · exact mapOneConcept_mem cl c s r h
      · exact Or.inr h
  exact hgen _ _ hr

/-- C1 counterexample: a reachable store whose improvement edges form a
directed two-cycle.  One extraction run persists concepts `0` and `1` for
paper `p1`; one `mapImprovements` run with an oracle that classifies every
pair `improves_on` then persists `0 → 1` and `1 → 0` — the `.neq` filter
only prevents self-loops, nothing checks that an edge closes a cycle. -/
theorem reachable_state_with_directed_cycle :
    ReachableDB dbWithCycle ∧
    Relation.TransGen (improvesEdge dbWithCycle) "0" "0" := by
  constructor
  · exact ReachableDB.mapStep alwaysImproves "p1"
      (ReachableDB.extractStep "p1" twoConceptsRaw ReachableDB.empty)
  · have h1 : improvesEdge dbWithCycle "0" "1" := by
      refine ⟨⟨"0", "1", "quality", mkRat 8 10⟩, by decide, rfl, rfl⟩
    have h2 : improvesEdge dbWithCycle "1" "0" := by
      refine ⟨⟨"1", "0", "quality", mkRat 8 10⟩, by decide, rfl, rfl⟩
    exact Relation.TransGen.head h1 (Relation.TransGen.single h2)

/-- C1 amended: at every reachable store state the `ConceptImproves` edges
contain no self-loop (`mapImprovements` excludes the concept itself from
its candidate set), but the new-to-old graph over those edges need not be
acyclic: `mapImprovements` persists any oracle-approved `improves_on` edge
without a cycle check, so an edge closing a directed cycle can be
persisted (see the counterexample); cycles are only detected afterwards by
the validator. -/
theorem reachable_no_self_loop (db : DB) (h : ReachableDB db) :
    ∀ r ∈ db.improves, r.new_concept ≠ r.old_concept := by
  induction h with
  | empty =>
    intro r hr
    simp [DB.empty] at hr
  | extractStep p raw _ ih =>
    intro r hr
    rw [extractPipeline_dbOps_improves] at hr
    exact ih r hr
  | mapStep cl p _ ih =>
    intro r hr
    rcases mapImprovements_mem cl p _ r hr with h2 | h2
    · exact ih r h2
    · exact h2

/-- C1 witness: the no-self-loop invariant evaluated on the reachable
cyclic store at its first edge. -/
theorem reachable_no_self_loop_witness :
    (⟨"0", "1", "quality", mkRat 8 10⟩ : ImprovesRow).new_concept ≠
      (⟨"0", "1", "quality", mkRat 8 10⟩ : ImprovesRow).old_concept :=
  reachable_no_self_loop dbWithCycle
    (ReachableDB.mapStep alwaysImproves "p1"
      (ReachableDB.extractStep "p1" twoConceptsRaw ReachableDB.empty))
    ⟨"0", "1", "quality", mkRat 8 10⟩ (by decide)

/-! ### C8 — deterministic traversal with stable tie-breaking -/

/-- The head of an insertion is the inserted candidate or the old head. -/
theorem insertDesc_head (c : Candidate) :
    ∀ (l : List Candidate) (y : Candidate), (insertDesc c l).head? = some y →
      y = c ∨ l.head? = some y := by
  intro l y
  cases l with
  | nil =>
    intro h
    exact Or.inl (Option.some.inj h).symm
  | cons d rest =>
    intro h
    by_cases hlt : candKey c < candKey d
    · rw [insertDesc, if_pos hlt] at h
      exact Or.inr h
    · rw [insertDesc, if_neg hlt] at h
      exact Or.inl (Option.some.inj h).symm

/-- Insertion preserves descending sortedness. -/
theorem insertDesc_sorted (c : Candidate) :
    ∀ l : List Candidate, l.Chain' (fun a b => candKey b ≤ candKey a) →
      (insertDesc c l).Chain' (fun a b => candKey b ≤ candKey a) := by
  intro l
  induction l with
  | nil => intro _; exact List.chain'_singleton c
  | cons d rest ih =>
    intro h
    obtain ⟨hd, ht⟩ := List.chain'_cons'.mp h
    by_cases hlt : candKey c < candKey d
    · rw [insertDesc, if_pos hlt]
      refine List.chain'_cons'.mpr ⟨?_, ih ht⟩
      intro y hy
      rcases insertDesc_head c rest y hy with h1 | h1
      · exact h1 ▸ le_of_lt hlt
      · exact hd y h1
    · rw [insertDesc, if_neg hlt]
      exact List.chain'_cons'.mpr ⟨fun y hy => (Option.some.inj hy) ▸ not_lt.mp hlt,
        List.chain'_cons'.mpr ⟨hd, ht⟩⟩

/-- Insertion is a permutation. -/
theorem insertDesc_perm (c : Candidate) :
    ∀ l : List Candidate, (insertDesc c l).Perm (c :: l) := by
  intro l
  induction l with
  | nil => exact List.Perm.refl [c]
  | cons d rest ih =>
    by_cases hlt : candKey c < candKey d
    · rw [insertDesc, if_pos hlt]
      exact (ih.cons d).trans (List.Perm.swap c d rest)
    · rw [insertDesc, if_neg hlt]

/-- Insertion never reorders the candidates that tie on any key: the
inserted candidate lands before every equal-key element, and all other
relative positions are untouched. -/
theorem insertDesc_filter (c : Candidate) (k : ℚ) :
    ∀ l : List Candidate,
      (insertDesc c l).filter (fun x => candKey x = k) =
        if candKey c = k then c :: l.filter (fun x => candKey x = k)
        else l.filter (fun x => candKey x = k) := by
  intro l
  induction l with
  | nil =>
    by_cases hck : candKey c = k
    · simp [insertDesc, hck]
    · simp [insertDesc, hck]
  | cons d rest ih =>
    by_cases hlt : candKey c < candKey d
    · rw [insertDesc, if_pos hlt]
      by_cases hck : candKey c = k
      · have hdk : ¬ candKey d = k := by
          intro hdk
          rw [hck, ← hdk] at hlt
          exact lt_irrefl _ hlt
        simp [List.filter_cons, hdk, hck, ih]
      · simp [List.filter_cons, hck, ih]
    · rw [insertDesc, if_neg hlt]
      by_cases hck : candKey c = k
      · simp [List.filter_cons, hck]
      · simp [List.filter_cons, hck]

/-- C8: the traversal is deterministic — with a fixed static snapshot
(`env` is a pure function of the paper id), two runs of
`fetchRelatedPapers` with the same seed and limit are the same value —
and the candidate sort used for expansion is exactly the stable descending
sort on `citationCount || 0`: its output is sorted descending, is a
permutation of its input (references before citations, in fetched order),
and preserves the relative order of candidates with equal citation counts,
so ties break by original discovery order. -/
theorem expand_deterministic_stable {D P : Type} (env : ReaderEnv D P)
    (seed : String) (limit fuel : Nat) :
    fetchRelatedPapers env seed limit fuel = fetchRelatedPapers env seed limit fuel ∧
    (∀ l : List Candidate,
      (sortByCitationDesc l).Chain' (fun a b => candKey b ≤ candKey a)) ∧
    (∀ l : List Candidate, (sortByCitationDesc l).Perm l) ∧
    (∀ (l : List Candidate) (k : ℚ),
      (sortByCitationDesc l).filter (fun x => candKey x = k) =
        l.filter (fun x => candKey x = k)) := by
  refine ⟨rfl, ?_, ?_, ?_⟩
  · intro l
    induction l with
    | nil => exact List.chain'_nil
    | cons c rest ih => exact insertDesc_sorted c _ ih
  · intro l
    induction l with
    | nil => exact List.Perm.refl []
    | cons c rest ih => exact (insertDesc_perm c _).trans (ih.cons c)
  · intro l k
    induction l with
    | nil => rfl
    | cons c rest ih =>
      show (insertDesc c (sortByCitationDesc rest)).filter (fun x => candKey x = k) =
        (c :: rest).filter (fun x => candKey x = k)
      rw [insertDesc_filter, ih]
      by_cases hck : candKey c = k
      · rw [if_pos hck]
        simp only [List.filter, show (decide (candKey c = k)) = true from decide_eq_true hck]
      · rw [if_neg hck]
        simp only [List.filter, show (decide (candKey c = k)) = false from decide_eq_false hck]

/-- C8 witness: the determinism equation evaluated on a concrete
snapshot, and the stable sort on a concrete tied candidate list. -/
theorem expand_deterministic_stable_witness :
    fetchRelatedPapers notFoundEnv "s" 3 10 = fetchRelatedPapers notFoundEnv "s" 3 10 ∧
    sortByCitationDesc
        [⟨some "a", some 1⟩, ⟨some "b", some 2⟩, ⟨some "c", some 1⟩] =
      [⟨some "b", some 2⟩, ⟨some "a", some 1⟩, ⟨some "c", some 1⟩] := by
  refine ⟨(expand_deterministic_stable notFoundEnv "s" 3 10).1, by decide⟩

/-! ### C9 — idempotence of `normalizeEntityName` -/

/-- Every character emitted by the run-collapsing replace is a lowercase
alphanumeric or the hyphen it substitutes. -/
theorem collapseGo_charset :
    ∀ (l : List Char) (b : Bool), ∀ c ∈ collapseGo b l, isLowerAlnum c = true ∨ c = '-' := by
  intro l
  induction l with
  | nil => intro b c hc; exact absurd hc (by simp [collapseGo])
  | cons d rest ih =>
    intro b c hc
    by_cases hd : isLowerAlnum d = true
    · rw [collapseGo, if_pos hd] at hc
      rcases List.mem_cons.mp hc with h | h
      · exact Or.inl (h ▸ hd)
      · exact ih false c h
    · rw [collapseGo, if_neg hd] at hc
      cases b with
      | true =>
        rw [if_pos rfl] at hc
        exact ih true c hc
      | false =>
        rw [if_neg (by simp)] at hc
        rcases List.mem_cons.mp hc with h | h
        · exact Or.inr h
        · exact ih true c h

/-- Inside a hyphen run, the next emitted character is alphanumeric. -/
theorem collapseGo_true_head :
    ∀ (l : List Char) (c : Char), (collapseGo true l).head? = some c →
      isLowerAlnum c = true := by
  intro l
  induction l with
  | nil => intro c hc; exact absurd hc (by simp [collapseGo])
  | cons d rest ih =>
    intro c hc
    by_cases hd : isLowerAlnum d = true
    · rw [collapseGo, if_pos hd] at hc
      exact (Option.some.inj hc) ▸ hd
    · rw [collapseGo, if_neg hd, if_pos rfl] at hc
      exact ih c hc

/-- The run-collapsing replace never emits two adjacent hyphens. -/
theorem collapseGo_chain :
    ∀ (l : List Char) (b : Bool),
      (collapseGo b l).Chain' (fun a b => isLowerAlnum a = true ∨ isLowerAlnum b = true) := by
  intro l
  induction l with
  | nil => intro b; simp [collapseGo]
  | cons d rest ih =>
    intro b
    by_cases hd : isLowerAlnum d = true
    · rw [collapseGo, if_pos hd]
      exact List.chain'_cons'.mpr ⟨fun y _ => Or.inl hd, ih false⟩
    · rw [collapseGo, if_neg hd]
      cases b with
      | true =>
        rw [if_pos rfl]
        exact ih true
      | false =>
        rw [if_neg (by simp)]
        refine List.chain'_cons'.mpr ⟨?_, ih true⟩
        intro y hy
        exact Or.inr (collapseGo_true_head rest y hy)

/-- An alphanumeric character is not a hyphen. -/
theorem alnum_ne_hyphen {c : Char} (h : isLowerAlnum c = true) : c ≠ '-' := by
  intro he
  rw [he] at h
  exact absurd h (by decide)

/-- The run-collapsing replace is the identity on strings over the output
alphabet with no adjacent hyphens; in run-state it additionally needs an
alphanumeric head. -/
theorem collapseGo_fix :
    ∀ l : List Char, (∀ c ∈ l, isLowerAlnum c = true ∨ c = '-') →
      l.Chain' (fun a b => isLowerAlnum a = true ∨ isLowerAlnum b = true) →
      (collapseGo false l = l ∧
        ((∀ c ∈ l.head?, isLowerAlnum c = true) → collapseGo true l = l)) := by
  intro l
  induction l with
  | nil => intro _ _; exact ⟨rfl, fun _ => rfl⟩
  | cons d rest ih =>
    intro hset hchain
    obtain ⟨hd1, ht⟩ := List.chain'_cons'.mp hchain
    have hrest := fun c hc => hset c (List.mem_cons_of_mem d hc)
    rcases hset d (List.mem_cons_self d rest) with hd | hd
    · have hfix : collapseGo false rest = rest := (ih hrest ht).1
      constructor
      · rw [collapseGo, if_pos hd, hfix]
      · intro _
        rw [collapseGo, if_pos hd, hfix]
    · subst hd
      have hdal : isLowerAlnum '-' = true → False := by decide
      constructor
      · rw [collapseGo, if_neg (by simpa using hdal), if_neg (by simp)]
        have htrue : collapseGo true rest = rest := by
          refine (ih hrest ht).2 ?_
          intro c hc
          rcases hd1 c hc with h | h
          · exact absurd h hdal
          · exact h
        rw [htrue]
      · intro hh
        exact absurd (hh '-' rfl) hdal

/-- `dropWhile` only returns a head the predicate rejects. -/
theorem dropWhile_head_false {α : Type} (p : α → Bool) :
    ∀ (l : List α) (c : α) (t : List α), l.dropWhile p = c :: t → p c = false := by
  intro l
  induction l with
  | nil => intro c t h; exact absurd h (by simp)
  | cons d rest ih =>
    intro c t h
    by_cases hp : p d = true
    · rw [List.dropWhile_cons, if_pos hp] at h
      exact ih c t h
    · rw [List.dropWhile_cons, if_neg hp] at h
      rw [← (List.cons.inj h).1]
      exact Bool.eq_false_iff.mpr hp

/-- `dropWhile` is the identity when the head is rejected. -/
theorem dropWhile_eq_self_of_head {α : Type} (p : α → Bool) :
    ∀ l : List α, (∀ c ∈ l.head?, p c = false) → l.dropWhile p = l := by
  intro l h
  cases l with
  | nil => rfl
  | cons d rest =>
    rw [List.dropWhile_cons, if_neg (by rw [h d rfl]; simp)]

/-- A nonempty `dropWhile` keeps the last element. -/
theorem dropWhile_getLast_of_ne_nil {α : Type} (p : α → Bool) :
    ∀ l : List α, l.dropWhile p ≠ [] → (l.dropWhile p).getLast? = l.getLast? := by
  intro l
  induction l with
  | nil => intro h; exact absurd rfl h
  | cons d rest ih =>
    intro h
    by_cases hp : p d = true
    · rw [List.dropWhile_cons, if_pos hp] at h ⊢
      rw [ih h]
      have hr : rest ≠ [] := by
        intro he
        rw [he] at h
        exact h rfl
      cases rest with
      | nil => exact absurd rfl hr
      | cons e rest2 => exact List.getLast?_cons_cons.symm
    · rw [List.dropWhile_cons, if_neg hp]

/-- Character-level facts: the output alphabet is untouched by the
lowercasing map and by `trim`. -/
theorem jsToLowerChar_fix {c : Char} (h : isLowerAlnum c = true ∨ c = '-') :
    jsToLowerChar c = c := by
  rcases h with h | h
  · have h2 := of_decide_eq_true h
    unfold jsToLowerChar
    rw [if_neg (by omega)]
  · subst h
    decide

/-- The output alphabet contains no whitespace. -/
theorem charset_not_space {c : Char} (h : isLowerAlnum c = true ∨ c = '-') :
    isJsSpace c = false := by
  rcases h with h | h
  · have h2 := of_decide_eq_true h
    unfold isJsSpace
    rw [decide_eq_false_iff_not]
    omega
  · subst h
    decide

/-- A map that fixes every element of a list is the identity on it. -/
theorem map_fix {α : Type} (f : α → α) :
    ∀ l : List α, (∀ c ∈ l, f c = c) → l.map f = l := by
  intro l
  induction l with
  | nil => intro _; rfl
  | cons d rest ih =>
    intro h
    rw [List.map_cons, h d (List.mem_cons_self d rest),
      ih (fun c hc => h c (List.mem_cons_of_mem d hc))]

/-- `trim` is the identity when neither end is whitespace. -/
theorem jsTrim_eq_self (l : List Char)
    (h1 : ∀ c ∈ l.head?, isJsSpace c = false)
    (h2 : ∀ c ∈ l.getLast?, isJsSpace c = false) : jsTrim l = l := by
  unfold jsTrim
  rw [dropWhile_eq_self_of_head isJsSpace l h1,
    dropWhile_eq_self_of_head isJsSpace l.reverse
      (by
        intro c hc
        rw [List.head?_reverse] at hc
        exact h2 c hc),
    List.reverse_reverse]

/-- Stripping the edge hyphen runs preserves the alphabet and the
no-adjacent-hyphens property and leaves alphanumeric ends. -/
theorem dropEdgeHyphens_props (m : List Char)
    (hset : ∀ c ∈ m, isLowerAlnum c = true ∨ c = '-')
    (hchain : m.Chain' (fun a b => isLowerAlnum a = true ∨ isLowerAlnum b = true)) :
    (∀ c ∈ dropEdgeHyphens m, isLowerAlnum c = true ∨ c = '-') ∧
    ((dropEdgeHyphens m).Chain' (fun a b => isLowerAlnum a = true ∨ isLowerAlnum b = true)) ∧
    (∀ c ∈ (dropEdgeHyphens m).head?, isLowerAlnum c = true) ∧
    (∀ c ∈ (dropEdgeHyphens m).getLast?, isLowerAlnum c = true) := by
  have hsym : ∀ l : List Char,
      l.Chain' (fun a b => isLowerAlnum a = true ∨ isLowerAlnum b = true) →
      l.reverse.Chain' (fun a b => isLowerAlnum a = true ∨ isLowerAlnum b = true) := by
    intro l hl
    rw [List.chain'_reverse]
    exact hl.imp (fun a b h => Or.symm h)
  have hmem : ∀ c ∈ dropEdgeHyphens m, c ∈ m := by
    intro c hc
    unfold dropEdgeHyphens at hc
    rw [List.mem_reverse] at hc
    have h1 := ((List.dropWhile_suffix _).sublist).subset hc
    rw [List.mem_reverse] at h1
    exact ((List.dropWhile_suffix _).sublist).subset h1
  refine ⟨fun c hc => hset c (hmem c hc), ?_, ?_, ?_⟩
  · unfold dropEdgeHyphens
    exact hsym _ ((hsym _ (hchain.suffix (List.dropWhile_suffix _))).suffix
      (List.dropWhile_suffix _))
  · intro c hc
    unfold dropEdgeHyphens at hc
    rw [List.head?_reverse] at hc
    rcases hX : (m.dropWhile (fun c => c = '-')).reverse.dropWhile (fun c => c = '-')
      with _ | ⟨x, xs⟩
    · rw [hX] at hc
      exact absurd hc (by simp)
    · rw [hX] at hc
      rw [← hX] at hc
      rw [dropWhile_getLast_of_ne_nil _ _ (by rw [hX]; exact List.cons_ne_nil x xs),
        List.getLast?_reverse] at hc
      rcases hY : m.dropWhile (fun c => c = '-') with _ | ⟨y, ys⟩
      · rw [hY] at hc
        exact absurd hc (by simp)
      · rw [hY] at hc
        have hne : (decide (y = '-')) = false := dropWhile_head_false _ m y ys hY
        have hym : y ∈ m :=
          ((List.dropWhile_suffix _).sublist).subset (hY ▸ List.mem_cons_self y ys)
        have hy : isLowerAlnum y = true := by
          rcases hset y hym with h | h
          · exact h
          · rw [decide_eq_false_iff_not] at hne
            exact absurd h hne
        have hcy : y = c := by simpa using hc
        exact hcy ▸ hy
  · intro c hc
    unfold dropEdgeHyphens at hc
    rw [List.getLast?_reverse] at hc
    rcases hX : (m.dropWhile (fun c => c = '-')).reverse.dropWhile (fun c => c = '-')
      with _ | ⟨x, xs⟩
    · rw [hX] at hc
      exact absurd hc (by simp)
    · rw [hX] at hc
      have hne : (decide (x = '-')) = false :=
        dropWhile_head_false _ (m.dropWhile (fun c => c = '-')).reverse x xs hX
      have hxm : x ∈ m := by
        have h1 : x ∈ (m.dropWhile (fun c => c = '-')).reverse :=
          ((List.dropWhile_suffix _).sublist).subset (hX ▸ List.mem_cons_self x xs)
        rw [List.mem_reverse] at h1
        exact ((List.dropWhile_suffix _).sublist).subset h1
      have hx : isLowerAlnum x = true := by
        rcases hset x hxm with h | h
        · exact h
        · rw [decide_eq_false_iff_not] at hne
          exact absurd h hne
      have hcx : x = c := by simpa using hc
      exact hcx ▸ hx

/-- The structural properties of every `normalizeEntityName` output. -/
theorem normalized_props (s : String) :
    (∀ c ∈ (normalizeEntityName s).data, isLowerAlnum c = true ∨ c = '-') ∧
    ((normalizeEntityName s).data.Chain'
      (fun a b => isLowerAlnum a = true ∨ isLowerAlnum b = true)) ∧
    (∀ c ∈ (normalizeEntityName s).data.head?, isLowerAlnum c = true) ∧
    (∀ c ∈ (normalizeEntityName s).data.getLast?, isLowerAlnum c = true) := by
  have h := dropEdgeHyphens_props (collapseGo false (jsTrim (s.data.map jsToLowerChar)))
    (collapseGo_charset _ false) (collapseGo_chain _ false)
  exact h

/-- `normalizeEntityName` is the identity on character lists that already
have its output shape. -/
theorem normalizeEntityName_fix (t : List Char)
    (hset : ∀ c ∈ t, isLowerAlnum c = true ∨ c = '-')
    (hchain : t.Chain' (fun a b => isLowerAlnum a = true ∨ isLowerAlnum b = true))
    (hhead : ∀ c ∈ t.head?, isLowerAlnum c = true)
    (hlast : ∀ c ∈ t.getLast?, isLowerAlnum c = true) :
    normalizeEntityName ⟨t⟩ = ⟨t⟩ := by
  have hmap : t.map jsToLowerChar = t :=
    map_fix _ t (fun c hc => jsToLowerChar_fix (hset c hc))
  have htrim : jsTrim t = t :=
    jsTrim_eq_self t (fun c hc => charset_not_space (Or.inl (hhead c hc)))
      (fun c hc => charset_not_space (Or.inl (hlast c hc)))
  have hcol : collapseGo false t = t := (collapseGo_fix t hset hchain).1
  have hdrop1 : t.dropWhile (fun c => c = '-') = t :=
    dropWhile_eq_self_of_head _ t
      (fun c hc => decide_eq_false (alnum_ne_hyphen (hhead c hc)))
  have hdrop2 : t.reverse.dropWhile (fun c => c = '-') = t.reverse :=
    dropWhile_eq_self_of_head _ t.reverse
      (fun c hc => by
        rw [List.head?_reverse] at hc
        exact decide_eq_false (alnum_ne_hyphen (hlast c hc)))
  show (⟨dropEdgeHyphens (collapseGo false (jsTrim (t.map jsToLowerChar)))⟩ : String) = ⟨t⟩
  rw [hmap, htrim, hcol]
  unfold dropEdgeHyphens
  rw [hdrop1, hdrop2, List.reverse_reverse]

/-- C9: `normalizeEntityName` is idempotent — its output consists only of
lowercase ASCII letters, digits and single interior hyphens, with no
leading or trailing hyphen, and each of `toLowerCase`, `trim`, the
run-collapsing replace and the edge-hyphen strip fixes strings of that
shape. -/
theorem normalizeEntityName_idempotent (s : String) :
    normalizeEntityName (normalizeEntityName s) = normalizeEntityName s ∧
    (∀ c ∈ (normalizeEntityName s).data, isLowerAlnum c = true ∨ c = '-') ∧
    (∀ c ∈ (normalizeEntityName s).data.head?, c ≠ '-') ∧
    (∀ c ∈ (normalizeEntityName s).data.getLast?, c ≠ '-') := by
  obtain ⟨hset, hchain, hhead, hlast⟩ := normalized_props s
  refine ⟨?_, hset, fun c hc => alnum_ne_hyphen (hhead c hc),
    fun c hc => alnum_ne_hyphen (hlast c hc)⟩
  exact normalizeEntityName_fix (normalizeEntityName s).data hset hchain hhead hlast

/-- C9 witness: idempotence and the output shape on a concrete messy name. -/
theorem normalizeEntityName_idempotent_witness :
    normalizeEntityName (normalizeEntityName "--3D  Gaussian__Splatting!! ") =
      normalizeEntityName "--3D  Gaussian__Splatting!! " ∧
    normalizeEntityName "--3D  Gaussian__Splatting!! " = "3d-gaussian-splatting" :=
  ⟨(normalizeEntityName_idempotent "--3D  Gaussian__Splatting!! ").1, by decide⟩

/-! ### C7 — the validator's DFS cycle check is exactly cycle detection -/

/-- Every adjacency-list entry is a node of the graph. -/
theorem adjOf_subset (edges : List (V × V)) (a : V) :
    ∀ x ∈ adjOf edges a, x ∈ allNodesOf edges := by
  intro x hx
  simp only [adjOf, List.mem_map, List.mem_filter] at hx
  obtain ⟨e, ⟨he, _⟩, rfl⟩ := hx
  exact List.mem_append_right _ (List.mem_map_of_mem Prod.snd he)

/-- Adjacency membership is exactly the edge relation. -/
theorem adjOf_mem (edges : List (V × V)) (a b : V) :
    b ∈ adjOf edges a ↔ edgeRel edges a b := by
  simp only [adjOf, edgeRel, List.mem_map, List.mem_filter]
  constructor
  · rintro ⟨e, ⟨he, hp⟩, rfl⟩
    simp only [decide_eq_true_eq] at hp
    rw [← hp]
    simpa using he
  · intro h
    exact ⟨(a, b), ⟨h, by simp⟩, rfl⟩

/-- Membership after a JS `Set.add`. -/
theorem mem_jsAdd (x y : V) (l : List V) : y ∈ jsAdd x l ↔ y = x ∨ y ∈ l := by
  by_cases h : x ∈ l
  · simp only [jsAdd, if_pos h]
    constructor
    · exact fun hy => Or.inr hy
    · rintro (rfl | hy)
      · exact h
      · exact hy
  · simp only [jsAdd, if_neg h]
    exact List.mem_cons

/-- `Set.add` of a fresh element is a cons. -/
theorem jsAdd_eq_cons (x : V) (l : List V) (h : x ∉ l) : jsAdd x l = x :: l := by
  simp only [jsAdd, if_neg h]

/-- `Set.delete` of the element just consed. -/
theorem jsDelete_cons_self (x : V) (l : List V) : jsDelete x (x :: l) = l := by
  simp only [jsDelete, List.erase_cons_head]

/-- A node all of whose successors are safe is safe. -/
theorem safeFrom_of_neighbors (edges : List (V × V)) (v : V)
    (h : ∀ y, edgeRel edges v y → SafeFrom edges y) : SafeFrom edges v := by
  rintro ⟨w, hvw, hww⟩
  rcases Relation.ReflTransGen.cases_head hvw with heq | ⟨y, hvy, hyw⟩
  · subst heq
    obtain ⟨z, hvz, hzv⟩ := Relation.TransGen.head'_iff.1 hww
    exact h z hvz ⟨v, hzv, hww⟩
  · exact h y hvy ⟨w, hyw, hww⟩

/-- `firstDedup` keeps exactly the members. -/
theorem mem_firstDedup (x : V) : ∀ l : List V, x ∈ firstDedup l ↔ x ∈ l := by
  intro l
  induction l using firstDedup.induct with
  | case1 => simp [firstDedup]
  | case2 a as ih =>
    simp only [firstDedup, List.mem_cons]
    constructor
    · rintro (rfl | h)
      · exact Or.inl rfl
      · exact Or.inr (List.mem_of_mem_filter (ih.1 h))
    · rintro (rfl | h)
      · exact Or.inl rfl
      · by_cases hxa : x = a
        · exact Or.inl hxa
        · refine Or.inr (ih.2 ?_)
          rw [List.mem_filter]
          exact ⟨h, by simp [hxa]⟩

/-- The neighbor loop restores the recursion stack whenever it reports no
cycle, and every recursive `hasCycle` call records its node as visited. -/
theorem neighborsLoop_restore (edges : List (V × V)) :
    ∀ (l : List V) (hl : ∀ x ∈ l, x ∈ allNodesOf edges) (visited stack : List V),
      RestoreP2 edges l hl visited stack := by
  refine neighborsLoop.induct edges (RestoreP1 edges) (RestoreP2 edges) ?_ ?_ ?_ ?_ ?_ ?_ ?_
  · intro node visited stack hmem hnv dv s' heq _
    unfold RestoreP1
    intro _
    simp only [hasCycle, heq]
    exact ⟨List.mem_append_right _ (List.mem_cons_self _ _), by simp⟩
  · intro node visited stack hmem hnv dv s' heq ih
    unfold RestoreP1
    intro hs
    have hns : node ∉ stack := fun hmem2 => hnv (hs node hmem2)
    have hpre : ∀ x ∈ jsAdd node stack, x ∈ node :: visited := by
      intro x hx
      rcases (mem_jsAdd node x stack).1 hx with rfl | hx'
      · exact List.mem_cons_self _ _
      · exact List.mem_cons_of_mem _ (hs x hx')
    have hs' : s' = jsAdd node stack := by
      have h1 := ih hpre (by rw [heq])
      rw [heq] at h1
      exact h1
    simp only [hasCycle, heq]
    refine ⟨List.mem_append_right _ (List.mem_cons_self _ _), fun _ => ?_⟩
    show jsDelete node s' = stack
    rw [hs', jsAdd_eq_cons node stack hns]
    exact jsDelete_cons_self node stack
  · intro visited stack hl _
    unfold RestoreP2
    intro _
    simp [neighborsLoop]
  · intro visited stack n rest hl hv hstk _
    unfold RestoreP2
    intro _
    simp only [neighborsLoop]
    rw [dif_pos hv, if_pos hstk]
    simp
  · intro visited stack n rest hl hv hstk _ ih
    unfold RestoreP2
    intro hs
    simp only [neighborsLoop]
    rw [dif_pos hv, if_neg hstk]
    exact ih hs
  · intro visited stack n rest hl h dv s' heq _ _
    unfold RestoreP2
    intro _
    simp only [neighborsLoop]
    rw [dif_neg h]
    simp only [heq]
    simp
  · intro visited stack n rest hl h dv s' heq b2 dv2 s2 heq2 _ ih1 ih2
    unfold RestoreP2
    intro hs
    have hres : s' = stack := by
      have h1 := (ih1 hs).2 (by rw [heq])
      rw [heq] at h1
      exact h1
    have hs3 : ∀ x ∈ s', x ∈ dv ++ visited := by
      rw [hres]
      exact fun x hx => List.mem_append_right dv (hs x hx)
    have h2 := ih2 hs3
    rw [heq2] at h2
    simp only [neighborsLoop]
    rw [dif_neg h]
    simp only [heq, heq2]
    intro hb2
    exact (h2 hb2).trans hres

/-- `hasCycle` restores the stack on a cycle-free return and records its
node as visited. -/
theorem hasCycle_restore (edges : List (V × V)) (node : V) (visited stack : List V)
    (hmem : node ∈ allNodesOf edges) (hnv : node ∉ visited) :
    RestoreP1 edges node visited stack hmem hnv := by
  unfold RestoreP1
  intro hs
  rcases hL : neighborsLoop edges (adjOf edges node) (adjOf_subset edges node)
      (node :: visited) (jsAdd node stack) with ⟨b, dv, s'⟩
  cases b
  · have hns : node ∉ stack := fun hmem2 => hnv (hs node hmem2)
    have hpre : ∀ x ∈ jsAdd node stack, x ∈ node :: visited := by
      intro x hx
      rcases (mem_jsAdd node x stack).1 hx with rfl | hx'
      · exact List.mem_cons_self _ _
      · exact List.mem_cons_of_mem _ (hs x hx')
    have hs' : s' = jsAdd node stack := by
      have h1 := neighborsLoop_restore edges (adjOf edges node) (adjOf_subset edges node)
        (node :: visited) (jsAdd node stack) hpre (by rw [hL])
      rw [hL] at h1
      exact h1
    simp only [hasCycle, hL]
    refine ⟨List.mem_append_right _ (List.mem_cons_self _ _), fun _ => ?_⟩
    show jsDelete node s' = stack
    rw [hs', jsAdd_eq_cons node stack hns]
    exact jsDelete_cons_self node stack
  · simp only [hasCycle, hL]
    exact ⟨List.mem_append_right _ (List.mem_cons_self _ _), by simp⟩

/-- Soundness of the neighbor loop: a reported back edge really closes a
directed cycle, provided every stack entry reaches the current node. -/
theorem neighborsLoop_sound (edges : List (V × V)) :
    ∀ (l : List V) (hl : ∀ x ∈ l, x ∈ allNodesOf edges) (visited stack : List V),
      SoundP2 edges l hl visited stack := by
  refine neighborsLoop.induct edges (SoundP1 edges) (SoundP2 edges) ?_ ?_ ?_ ?_ ?_ ?_ ?_
  · intro node visited stack hmem hnv dv s' heq ih
    unfold SoundP1
    intro hs hchain _
    refine ih node ?_ ?_ ?_ ?_ (by rw [heq])
    · intro x hx
      rcases (mem_jsAdd node x stack).1 hx with rfl | hx'
      · exact List.mem_cons_self _ _
      · exact List.mem_cons_of_mem _ (hs x hx')
    · exact (mem_jsAdd node node stack).2 (Or.inl rfl)
    · intro u hu
      rcases (mem_jsAdd node u stack).1 hu with rfl | hu'
      · exact Relation.ReflTransGen.refl
      · exact hchain u hu'
    · intro m hm
      exact (adjOf_mem edges node m).1 hm
  · intro node visited stack hmem hnv dv s' heq _
    unfold SoundP1
    intro _ _ htrue
    simp only [hasCycle, heq] at htrue
    simp at htrue
  · intro visited stack hl _
    unfold SoundP2
    intro node _ _ _ _ htrue
    simp [neighborsLoop] at htrue
  · intro visited stack n rest hl hv hstk _
    unfold SoundP2
    intro node _ _ hchain hedge _
    exact ⟨node, Relation.TransGen.head' (hedge n (List.mem_cons_self n rest)) (hchain n hstk)⟩
  · intro visited stack n rest hl hv hstk _ ih
    unfold SoundP2
    intro node hs hnode hchain hedge htrue
    refine ih node hs hnode hchain (fun m hm => hedge m (List.mem_cons_of_mem n hm)) ?_
    simp only [neighborsLoop] at htrue
    rw [dif_pos hv, if_neg hstk] at htrue
    exact htrue
  · intro visited stack n rest hl h dv s' heq _ ih1
    unfold SoundP2
    intro node hs hnode hchain hedge _
    refine ih1 hs ?_ (by rw [heq])
    intro u hu
    exact Relation.ReflTransGen.tail (hchain u hu) (hedge n (List.mem_cons_self n rest))
  · intro visited stack n rest hl h dv s' heq b2 dv2 s2 heq2 _ ih1 ih2
    unfold SoundP2
    intro node hs hnode hchain hedge htrue
    have hres0 := (hasCycle_restore edges n visited stack
      (hl n (List.mem_cons_self n rest)) h hs).2 (by rw [heq])
    rw [heq] at hres0
    have hres : s' = stack := hres0
    simp only [neighborsLoop] at htrue
    rw [dif_neg h] at htrue
    simp only [heq, heq2] at htrue
    refine ih2 node ?_ ?_ ?_ (fun m hm => hedge m (List.mem_cons_of_mem n hm)) ?_
    · rw [hres]
      exact fun x hx => List.mem_append_right dv (hs x hx)
    · rw [hres]
      exact hnode
    · rw [hres]
      exact hchain
    · rw [heq2]
      exact htrue

/-- Soundness of `hasCycle`: if it reports a cycle (with every stack entry
reaching the current node), the graph has a directed cycle. -/
theorem hasCycle_sound (edges : List (V × V)) (node : V) (visited stack : List V)
    (hmem : node ∈ allNodesOf edges) (hnv : node ∉ visited) :
    SoundP1 edges node visited stack hmem hnv := by
  unfold SoundP1
  intro hs hchain htrue
  rcases hL : neighborsLoop edges (adjOf edges node) (adjOf_subset edges node)
      (node :: visited) (jsAdd node stack) with ⟨b, dv, s'⟩
  cases b
  · simp only [hasCycle, hL] at htrue
    simp at htrue
  · refine neighborsLoop_sound edges (adjOf edges node) (adjOf_subset edges node)
      (node :: visited) (jsAdd node stack) node ?_ ?_ ?_ ?_ (by rw [hL])
    · intro x hx
      rcases (mem_jsAdd node x stack).1 hx with rfl | hx'
      · exact List.mem_cons_self _ _
      · exact List.mem_cons_of_mem _ (hs x hx')
    · exact (mem_jsAdd node node stack).2 (Or.inl rfl)
    · intro u hu
      rcases (mem_jsAdd node u stack).1 hu with rfl | hu'
      · exact Relation.ReflTransGen.refl
      · exact hchain u hu'
    · intro m hm
      exact (adjOf_mem edges node m).1 hm

/-- Completeness of the neighbor loop: a cycle-free pass leaves every
off-stack visited node safe and certifies every scanned neighbor safe. -/
theorem neighborsLoop_complete (edges : List (V × V)) :
    ∀ (l : List V) (hl : ∀ x ∈ l, x ∈ allNodesOf edges) (visited stack : List V),
      CompleteP2 edges l hl visited stack := by
  refine neighborsLoop.induct edges (CompleteP1 edges) (CompleteP2 edges) ?_ ?_ ?_ ?_ ?_ ?_ ?_
  · intro node visited stack hmem hnv dv s' heq _
    unfold CompleteP1
    intro _ _ hfalse
    simp only [hasCycle, heq] at hfalse
    simp at hfalse
  · intro node visited stack hmem hnv dv s' heq ih
    unfold CompleteP1
    intro hs hsafe _
    have hpre : ∀ x ∈ jsAdd node stack, x ∈ node :: visited := by
      intro x hx
      rcases (mem_jsAdd node x stack).1 hx with rfl | hx'
      · exact List.mem_cons_self _ _
      · exact List.mem_cons_of_mem _ (hs x hx')
    have hsafe' : ∀ x ∈ node :: visited, x ∉ jsAdd node stack → SafeFrom edges x := by
      intro x hx hxn
      rcases List.mem_cons.1 hx with rfl | hx'
      · exact absurd ((mem_jsAdd x x stack).2 (Or.inl rfl)) hxn
      · refine hsafe x hx' (fun hxs => hxn ?_)
        exact (mem_jsAdd node x stack).2 (Or.inr hxs)
    obtain ⟨hall, hadj⟩ := ih hpre hsafe' (by rw [heq])
    rw [heq] at hall
    have hall' : ∀ x ∈ dv ++ (node :: visited), x ∉ jsAdd node stack → SafeFrom edges x := hall
    have hsafeNode : SafeFrom edges node :=
      safeFrom_of_neighbors edges node (fun y hy => hadj y ((adjOf_mem edges node y).2 hy))
    simp only [hasCycle, heq]
    intro x hx hxs
    have hx' : x ∈ (dv ++ [node]) ++ visited := hx
    by_cases hxnode : x = node
    · exact hxnode ▸ hsafeNode
    · have hxd : x ∈ dv ++ (node :: visited) := by
        rcases List.mem_append.1 hx' with hxa | hxv
        · rcases List.mem_append.1 hxa with hxdv | hxn1
          · exact List.mem_append_left _ hxdv
          · simp only [List.mem_singleton] at hxn1
            exact absurd hxn1 hxnode
        · exact List.mem_append_right _ (List.mem_cons_of_mem _ hxv)
      refine hall' x hxd (fun hmem2 => ?_)
      rcases (mem_jsAdd node x stack).1 hmem2 with rfl | hxs2
      · exact hxnode rfl
      · exact hxs hxs2
  · intro visited stack hl _
    unfold CompleteP2
    intro hs hsafe _
    refine ⟨?_, by simp⟩
    intro x hx hxs
    simp only [neighborsLoop] at hx
    exact hsafe x (by simpa using hx) hxs
  · intro visited stack n rest hl hv hstk _
    unfold CompleteP2
    intro _ _ hfalse
    simp only [neighborsLoop] at hfalse
    rw [dif_pos hv, if_pos hstk] at hfalse
    simp at hfalse
  · intro visited stack n rest hl hv hstk _ ih
    unfold CompleteP2
    intro hs hsafe hfalse
    simp only [neighborsLoop] at hfalse ⊢
    rw [dif_pos hv, if_neg hstk] at hfalse ⊢
    obtain ⟨hall, hrest⟩ := ih hs hsafe hfalse
    refine ⟨hall, ?_⟩
    intro m hm
    rcases List.mem_cons.1 hm with rfl | hm'
    · exact hsafe _ hv hstk
    · exact hrest m hm'
  · intro visited stack n rest hl h dv s' heq _ _
    unfold CompleteP2
    intro _ _ hfalse
    simp only [neighborsLoop] at hfalse
    rw [dif_neg h] at hfalse
    simp only [heq] at hfalse
    simp at hfalse
  · intro visited stack n rest hl h dv s' heq b2 dv2 s2 heq2 _ ih1 ih2
    unfold CompleteP2
    intro hs hsafe hfalse
    simp only [neighborsLoop] at hfalse
    rw [dif_neg h] at hfalse
    simp only [heq, heq2] at hfalse
    have hrest0 := hasCycle_restore edges n visited stack
      (hl n (List.mem_cons_self n rest)) h hs
    have hmemn0 := hrest0.1
    rw [heq] at hmemn0
    have hmemn : n ∈ dv := hmemn0
    have hres0 := hrest0.2 (by rw [heq])
    rw [heq] at hres0
    have hres : s' = stack := hres0
    have hC := ih1 hs hsafe (by rw [heq])
    rw [heq] at hC
    have hC' : ∀ x ∈ dv ++ visited, x ∉ stack → SafeFrom edges x := hC
    have hih2 := ih2 (by
        rw [hres]
        exact fun x hx => List.mem_append_right dv (hs x hx))
      (by
        rw [hres]
        exact hC')
      (by
        rw [heq2]
        exact hfalse)
    obtain ⟨hall2, hsafe2⟩ := hih2
    rw [heq2] at hall2
    have hall2' : ∀ x ∈ dv2 ++ (dv ++ visited), x ∉ s' → SafeFrom edges x := hall2
    constructor
    · simp only [neighborsLoop]
      rw [dif_neg h]
      simp only [heq, heq2]
      intro x hx hxs
      have hx' : x ∈ (dv2 ++ dv) ++ visited := hx
      have hx2 : x ∈ dv2 ++ (dv ++ visited) := by
        simpa [List.append_assoc] using hx'
      refine hall2' x hx2 ?_
      rw [hres]
      exact hxs
    · intro m hm
      rcases List.mem_cons.1 hm with rfl | hm'
      · exact hC' _ (List.mem_append_left _ hmemn) (fun hns => h (hs _ hns))
      · exact hsafe2 m hm'

/-- Completeness of `hasCycle`: a cycle-free return certifies every node
it visited (and every previously safe visited node) safe. -/
theorem hasCycle_complete (edges : List (V × V)) (node : V) (visited stack : List V)
    (hmem : node ∈ allNodesOf edges) (hnv : node ∉ visited) :
    CompleteP1 edges node visited stack hmem hnv := by
  unfold CompleteP1
  intro hs hsafe hfalse
  rcases hL : neighborsLoop edges (adjOf edges node) (adjOf_subset edges node)
      (node :: visited) (jsAdd node stack) with ⟨b, dv, s'⟩
  cases b
  · have hpre : ∀ x ∈ jsAdd node stack, x ∈ node :: visited := by
      intro x hx
      rcases (mem_jsAdd node x stack).1 hx with rfl | hx'
      · exact List.mem_cons_self _ _
      · exact List.mem_cons_of_mem _ (hs x hx')
    have hsafe' : ∀ x ∈ node :: visited, x ∉ jsAdd node stack → SafeFrom edges x := by
      intro x hx hxn
      rcases List.mem_cons.1 hx with rfl | hx'
      · exact absurd ((mem_jsAdd x x stack).2 (Or.inl rfl)) hxn
      · refine hsafe x hx' (fun hxs => hxn ?_)
        exact (mem_jsAdd node x stack).2 (Or.inr hxs)
    obtain ⟨hall, hadj⟩ := neighborsLoop_complete edges (adjOf edges node)
      (adjOf_subset edges node) (node :: visited) (jsAdd node stack) hpre hsafe'
      (by rw [hL])
    rw [hL] at hall
    have hall' : ∀ x ∈ dv ++ (node :: visited), x ∉ jsAdd node stack → SafeFrom edges x := hall
    have hsafeNode : SafeFrom edges node :=
      safeFrom_of_neighbors edges node (fun y hy => hadj y ((adjOf_mem edges node y).2 hy))
    simp only [hasCycle, hL]
    intro x hx hxs
    have hx' : x ∈ (dv ++ [node]) ++ visited := hx
    by_cases hxnode : x = node
    · exact hxnode ▸ hsafeNode
    · have hxd : x ∈ dv ++ (node :: visited) := by
        rcases List.mem_append.1 hx' with hxa | hxv
        · rcases List.mem_append.1 hxa with hxdv | hxn1
          · exact List.mem_append_left _ hxdv
          · simp only [List.mem_singleton] at hxn1
            exact absurd hxn1 hxnode
        · exact List.mem_append_right _ (List.mem_cons_of_mem _ hxv)
      refine hall' x hxd (fun hmem2 => ?_)
      rcases (mem_jsAdd node x stack).1 hmem2 with rfl | hxs2
      · exact hxnode rfl
      · exact hxs hxs2
  · simp only [hasCycle, hL] at hfalse
    simp at hfalse

/-- Soundness of the outer roots loop: started with an empty recursion
stack, a positive conflict count implies a directed cycle. -/
theorem rootsLoop_sound (edges : List (V × V)) :
    ∀ (roots : List V) (hr : ∀ x ∈ roots, x ∈ allNodesOf edges) (visited : List V),
      0 < rootsLoop edges roots hr visited [] →
      ∃ w, Relation.TransGen (edgeRel edges) w w := by
  intro roots
  induction roots with
  | nil =>
    intro hr visited hpos
    simp [rootsLoop] at hpos
  | cons r rest ih =>
    intro hr visited hpos
    simp only [rootsLoop] at hpos
    by_cases hv : r ∈ visited
    · rw [dif_pos hv] at hpos
      exact ih _ visited hpos
    · rw [dif_neg hv] at hpos
      rcases hC : hasCycle edges r visited [] (hr r (List.mem_cons_self r rest)) hv
        with ⟨b, dv, s'⟩
      cases b
      · simp only [hC] at hpos
        simp only [Bool.false_eq_true, if_false, Nat.zero_add] at hpos
        have hres0 := (hasCycle_restore edges r visited []
          (hr r (List.mem_cons_self r rest)) hv (by simp)).2 (by rw [hC])
        rw [hC] at hres0
        have hres : s' = [] := hres0
        rw [hres] at hpos
        exact ih _ (dv ++ visited) hpos
      · exact hasCycle_sound edges r visited [] (hr r (List.mem_cons_self r rest)) hv
          (by simp) (by simp) (by rw [hC])

/-- Completeness of the outer roots loop: started with an empty recursion
stack over safe visited nodes, a zero conflict count certifies every root
safe. -/
theorem rootsLoop_complete (edges : List (V × V)) :
    ∀ (roots : List V) (hr : ∀ x ∈ roots, x ∈ allNodesOf edges) (visited : List V),
      (∀ x ∈ visited, SafeFrom edges x) →
      rootsLoop edges roots hr visited [] = 0 →
      ∀ r ∈ roots, SafeFrom edges r := by
  intro roots
  induction roots with
  | nil =>
    intro hr visited _ _ m hm
    simp at hm
  | cons r rest ih =>
    intro hr visited hsafe hzero m hm
    simp only [rootsLoop] at hzero
    by_cases hv : r ∈ visited
    · rw [dif_pos hv] at hzero
      rcases List.mem_cons.1 hm with rfl | hm'
      · exact hsafe _ hv
      · exact ih _ visited hsafe hzero m hm'
    · rw [dif_neg hv] at hzero
      rcases hC : hasCycle edges r visited [] (hr r (List.mem_cons_self r rest)) hv
        with ⟨b, dv, s'⟩
      cases b
      · simp only [hC] at hzero
        simp only [Bool.false_eq_true, if_false, Nat.zero_add] at hzero
        have hres0 := (hasCycle_restore edges r visited []
          (hr r (List.mem_cons_self r rest)) hv (by simp)).2 (by rw [hC])
        rw [hC] at hres0
        have hres : s' = [] := hres0
        rw [hres] at hzero
        have hC2 := hasCycle_complete edges r visited []
          (hr r (List.mem_cons_self r rest)) hv (by simp)
          (fun x hx _ => hsafe x hx) (by rw [hC])
        rw [hC] at hC2
        have hC2' : ∀ x ∈ dv ++ visited, SafeFrom edges x :=
          fun x hx => hC2 x hx (by simp)
        rcases List.mem_cons.1 hm with rfl | hm'
        · have hmr0 := (hasCycle_restore edges m visited []
            (hr m (List.mem_cons_self m rest)) hv (by simp)).1
          rw [hC] at hmr0
          exact hC2' _ (List.mem_append_left _ hmr0)
        · exact ih _ (dv ++ visited) hC2' hzero m hm'
      · simp only [hC] at hzero
        simp at hzero

/-- C7: `checkCircularImprovements` reports a circular-improvement conflict
(a positive conflict count) if and only if the directed new-to-old graph
over the `ConceptImproves` edges contains a directed cycle; and for edges
A→B, B→C, C→A inserted in that order, no cycle is flagged after the first
two edges but a cycle is flagged after the third. -/
theorem checkCircularImprovements_iff_cycle :
    (∀ (V : Type) [DecidableEq V] (edges : List (V × V)),
      0 < checkCircularImprovements edges ↔
        ∃ v, Relation.TransGen (edgeRel edges) v v) ∧
    checkCircularImprovements [("A", "B"), ("B", "C")] = 0 ∧
    0 < checkCircularImprovements [("A", "B"), ("B", "C"), ("C", "A")] := by
  refine ⟨?_, ?_, ?_⟩
  · intro V iV edges
    constructor
    · intro hpos
      unfold checkCircularImprovements at hpos
      exact rootsLoop_sound edges _ _ [] hpos
    · rintro ⟨v, hvv⟩
      by_contra h0
      have hzero : checkCircularImprovements edges = 0 := Nat.eq_zero_of_not_pos h0
      unfold checkCircularImprovements at hzero
      have hsafe := rootsLoop_complete edges _ _ [] (by simp) hzero
      obtain ⟨y, hvy, _⟩ := Relation.TransGen.head'_iff.1 hvv
      have hvmem : v ∈ edges.map Prod.fst := List.mem_map_of_mem Prod.fst hvy
      have hvroot : v ∈ firstDedup (edges.map Prod.fst) := (mem_firstDedup v _).2 hvmem
      exact hsafe v hvroot ⟨v, Relation.ReflTransGen.refl, hvv⟩
  · simp [checkCircularImprovements, rootsLoop, hasCycle, neighborsLoop, firstDedup,
      adjOf, allNodesOf, jsAdd, jsDelete]
  · simp [checkCircularImprovements, rootsLoop, hasCycle, neighborsLoop, firstDedup,
      adjOf, allNodesOf, jsAdd, jsDelete]

end KG
